import Mathlib

/-!
Verification of the workflow execution engine of the `nodeflow` repository
(`src/lib/constructorParser.ts`, class `WorkflowExecutor`).

The TypeScript code is shallowly embedded below:

* JavaScript `Map` objects (which iterate in key-insertion order) are embedded
  as insertion-ordered association lists `List (String × β)` with `mapGet` /
  `mapSet` mirroring `Map.get` / `Map.set` (update-in-place for an existing
  key, append for a new key).
* `buildExecutionOrder` (Kahn's algorithm, lines 310-358) becomes
  `buildExecutionOrder` below, with the `while` loop written as the
  fuel-indexed recursion `kahnLoop`; the fuel `nodes.length + edges.length + 1`
  is proved sufficient (`kahnLoop` always terminates by queue exhaustion).
* JavaScript numbers used as in-degrees become `Int` (so that the decrement
  `(inDegree.get(neighbor) || 0) - 1` is faithful, including going negative).
* The asynchronous per-type node handlers call external collaborators
  (compiler service, wallet, chain client, AI service); their observable
  outcome is a returned `ExecutionResult` or a thrown error, so `execute` /
  `executeNode` are parametrised by a handler oracle
  `H : WNode → HandlerOutcome Val` describing, for each node, what its
  type-specific handler does.  The dispatch, status-callback, store and
  failure-propagation logic of `execute` / `executeNode` is embedded exactly.
* The status / node-data / edge callbacks (`onNodeStatus`, `onNodeUpdate`,
  `onEdgeUpdate`) are observed as an event trace.
-/

namespace NodeFlow

/-- Lookup in an insertion-ordered association list; embeds `Map.get`
(returning `undefined` as `none`). -/
def mapGet {β : Type} (m : List (String × β)) (k : String) : Option β :=
  match m with
  | [] => none
  | (k', v) :: rest => if k' = k then some v else mapGet rest k

/-- Embeds `Map.set`: update-in-place for an existing key (keeping its
position, as JavaScript maps do), append at the end for a new key. -/
def mapSet {β : Type} (m : List (String × β)) (k : String) (v : β) : List (String × β) :=
  match m with
  | [] => [(k, v)]
  | (k', v') :: rest => if k' = k then (k, v) :: rest else (k', v') :: mapSet rest k v

/-- The keys of an association list, in insertion order (`Map` iteration
order). -/
def mapKeys {β : Type} (m : List (String × β)) : List String := m.map (·.1)

/-- A workflow node as `execute` sees it: `id` from the `@xyflow/react`
`Node`, `label` and `type` from its `data : NodeData` payload. -/
structure WNode where
  id : String
  label : String
  type : String
  deriving DecidableEq, Repr

/-- A workflow edge: ordered pair of node ids (`edge.source`, `edge.target`). -/
structure WEdge where
  source : String
  target : String
  deriving DecidableEq, Repr

/-- First half of the `nodes.forEach` initialisation in `buildExecutionOrder`
(line 317): `inDegree.set(node.id, 0)` for each node in order. -/
def initInDegree (nodes : List WNode) : List (String × Int) :=
  nodes.foldl (fun dm n => mapSet dm n.id 0) []

/-- Second half of the `nodes.forEach` initialisation (line 319):
`adjacencyList.set(node.id, [])` for each node in order. -/
def initAdjacency (nodes : List WNode) : List (String × List String) :=
  nodes.foldl (fun am n => mapSet am n.id []) []

/-- One step of the `edges.forEach` loop (lines 323-326):
`adjacencyList.get(edge.source)?.push(edge.target)` (a no-op when the source
key is absent) followed by
`inDegree.set(edge.target, (inDegree.get(edge.target) || 0) + 1)`. -/
def addEdge (st : List (String × Int) × List (String × List String)) (e : WEdge) :
    List (String × Int) × List (String × List String) :=
  let am := match mapGet st.2 e.source with
    | some lst => mapSet st.2 e.source (lst ++ [e.target])
    | none => st.2
  let dm := mapSet st.1 e.target ((mapGet st.1 e.target).getD 0 + 1)
  (dm, am)

/-- The in-degree map and adjacency list after initialisation and the
`edges.forEach` pass. -/
def buildMaps (nodes : List WNode) (edges : List WEdge) :
    List (String × Int) × List (String × List String) :=
  edges.foldl addEdge (initInDegree nodes, initAdjacency nodes)

/-- The `inDegree.forEach` seeding pass (lines 332-336): all keys with
degree 0, in map iteration (= insertion) order. -/
def seedQueue (dm : List (String × Int)) : List String :=
  (dm.filter (fun p => p.2 = 0)).map (·.1)

/-- One neighbour step of the inner `forEach` (lines 342-349): decrement the
neighbour's degree (`(inDegree.get(neighbor) || 0) - 1`), write it back, and
enqueue the neighbour exactly when the new degree is 0. -/
def processNeighbor (st : List (String × Int) × List String) (neighbor : String) :
    List (String × Int) × List String :=
  let newDegree := (mapGet st.1 neighbor).getD 0 - 1
  let dm := mapSet st.1 neighbor newDegree
  if newDegree = 0 then (dm, st.2 ++ [neighbor]) else (dm, st.2)

/-- The `while (queue.length > 0)` loop of Kahn's algorithm (lines 338-350),
written with explicit fuel: pop the queue head, append it to the result,
process its adjacency list (missing key: no neighbours). -/
def kahnLoop (am : List (String × List String)) :
    Nat → List (String × Int) → List String → List String → List String
  | 0, _, _, result => result
  | _ + 1, _, [], result => result
  | fuel + 1, dm, nodeId :: rest, result =>
    let neighbors := (mapGet am nodeId).getD []
    let st := neighbors.foldl processNeighbor (dm, rest)
    kahnLoop am fuel st.1 st.2 (result ++ [nodeId])

/-- Embeds `WorkflowExecutor.buildExecutionOrder` (lines 310-358).  Throwing the
cycle error is embedded as `Except.error` with the thrown message.  The fuel
`nodes.length + edges.length + 1` strictly exceeds the number of keys of the
in-degree map, and each key is enqueued (hence popped) at most once, so the
embedded loop always stops because the queue is empty, exactly like the
source's `while` loop (proved in `kahnLoop_complete` below). -/
def buildExecutionOrder (nodes : List WNode) (edges : List WEdge) :
    Except String (List String) :=
  let maps := buildMaps nodes edges
  let result := kahnLoop maps.2 (nodes.length + edges.length + 1) maps.1 (seedQueue maps.1) []
  if result.length ≠ nodes.length then
    Except.error "Workflow contains a cycle. Please check your connections."
  else
    Except.ok result

/-! ### Association-list (JS `Map`) lemmas -/

theorem mapGet_mapSet_self {β : Type} (m : List (String × β)) (k : String) (v : β) :
    mapGet (mapSet m k v) k = some v := by
  induction m with
  | nil => simp [mapGet, mapSet]
  | cons p rest ih =>
    by_cases h : p.1 = k
    · simp [mapGet, mapSet, h]
    · simp [mapGet, mapSet, h, ih]

theorem mapGet_mapSet_ne {β : Type} (m : List (String × β)) {k k' : String} (v : β)
    (h : k ≠ k') : mapGet (mapSet m k v) k' = mapGet m k' := by
  induction m with
  | nil => simp [mapGet, mapSet, h]
  | cons p rest ih =>
    by_cases hp : p.1 = k
    · subst hp
      simp [mapGet, mapSet, h]
    · simp only [mapSet, if_neg hp]
      by_cases hp' : p.1 = k'
      · simp [mapGet, hp']
      · simp [mapGet, hp', ih]

theorem mapGet_eq_none_of_not_mem {β : Type} (m : List (String × β)) (k : String)
    (h : k ∉ mapKeys m) : mapGet m k = none := by
  induction m with
  | nil => simp [mapGet]
  | cons p rest ih =>
    simp only [mapKeys, List.map_cons, List.mem_cons, not_or] at h
    have h1 : ¬p.1 = k := fun hh => h.1 hh.symm
    simp [mapGet, h1, ih (by simpa [mapKeys] using h.2)]

theorem mapGet_isSome_of_mem {β : Type} (m : List (String × β)) (k : String)
    (h : k ∈ mapKeys m) : (mapGet m k).isSome := by
  induction m with
  | nil => simp [mapKeys] at h
  | cons p rest ih =>
    by_cases hp : p.1 = k
    · simp [mapGet, hp]
    · simp only [mapKeys, List.map_cons, List.mem_cons] at h
      rcases h with h | h
      · exact absurd h.symm hp
      · simp [mapGet, hp, ih (by simpa [mapKeys] using h)]

theorem mapSet_eq_append_of_not_mem {β : Type} (m : List (String × β)) (k : String) (v : β)
    (h : k ∉ mapKeys m) : mapSet m k v = m ++ [(k, v)] := by
  induction m with
  | nil => simp [mapSet]
  | cons p rest ih =>
    simp only [mapKeys, List.map_cons, List.mem_cons, not_or] at h
    have h1 : ¬p.1 = k := fun hh => h.1 hh.symm
    simp [mapSet, h1, ih (by simpa [mapKeys] using h.2)]

theorem mapKeys_mapSet_of_mem {β : Type} (m : List (String × β)) (k : String) (v : β)
    (h : k ∈ mapKeys m) : mapKeys (mapSet m k v) = mapKeys m := by
  induction m with
  | nil => simp [mapKeys] at h
  | cons p rest ih =>
    by_cases hp : p.1 = k
    · simp [mapSet, mapKeys, hp]
    · simp only [mapKeys, List.map_cons, List.mem_cons] at h
      rcases h with h | h
      · exact absurd h.symm hp
      · have := ih (by simpa [mapKeys] using h)
        simp only [mapSet, if_neg hp, mapKeys, List.map_cons] at this ⊢
        simp [this]

theorem mapKeys_mapSet {β : Type} (m : List (String × β)) (k : String) (v : β) :
    mapKeys (mapSet m k v) = if k ∈ mapKeys m then mapKeys m else mapKeys m ++ [k] := by
  by_cases h : k ∈ mapKeys m
  · simp [mapKeys_mapSet_of_mem, h]
  · rw [mapSet_eq_append_of_not_mem _ _ _ h]
    have h' : k ∉ List.map (fun x => x.1) m := h
    simp [mapKeys, h']

theorem mapKeys_mapSet_nodup {β : Type} (m : List (String × β)) (k : String) (v : β)
    (h : (mapKeys m).Nodup) : (mapKeys (mapSet m k v)).Nodup := by
  rw [mapKeys_mapSet]
  by_cases hk : k ∈ mapKeys m
  · simpa [hk]
  · simp [hk, List.nodup_append, h]

theorem length_mapSet_le {β : Type} (m : List (String × β)) (k : String) (v : β) :
    (mapSet m k v).length ≤ m.length + 1 := by
  induction m with
  | nil => simp [mapSet]
  | cons p rest ih =>
    by_cases hp : p.1 = k
    · simp [mapSet, hp]
    · simp only [mapSet, if_neg hp, List.length_cons]
      omega

/-- An association list with the given nodup key list and given lookups is
uniquely determined. -/
theorem assoc_eq_of_keys {β : Type} (m : List (String × β)) (K : List String) (f : String → β)
    (hK : mapKeys m = K) (hnd : K.Nodup) (hget : ∀ k ∈ K, mapGet m k = some (f k)) :
    m = K.map (fun k => (k, f k)) := by
  induction m generalizing K with
  | nil =>
    simp only [mapKeys, List.map_nil] at hK
    subst hK; simp
  | cons p rest ih =>
    obtain ⟨k0, K', rfl⟩ : ∃ k0 K', K = k0 :: K' := by
      cases K with
      | nil => simp [mapKeys] at hK
      | cons a b => exact ⟨a, b, rfl⟩
    simp only [mapKeys, List.map_cons, List.cons.injEq] at hK
    obtain ⟨hk0, hrest⟩ := hK
    have hv : p.2 = f k0 := by
      have := hget k0 (by simp)
      simpa [mapGet, hk0] using this
    have hrec : rest = K'.map (fun k => (k, f k)) := by
      refine ih K' hrest hnd.of_cons ?_
      intro k hk
      have hne : k0 ≠ k := by
        rintro rfl
        exact (List.nodup_cons.mp hnd).1 hk
      have := hget k (by simp [hk])
      simpa [mapGet, hk0, hne] using this
    cases p with
    | mk a b =>
      simp only at hk0 hv
      simp [hk0, hv, hrec]

/-! ### Static shape of the in-degree map and adjacency list -/

/-- The ids of the supplied nodes, in their original array order. -/
def nodeIds (nodes : List WNode) : List String := nodes.map (·.id)

/-- Number of edges whose target is `v` (the in-degree `v` would have if all
edges were counted). -/
def inCount (edges : List WEdge) (v : String) : Nat :=
  (edges.filter (fun e => decide (e.target = v))).length

/-- The list of targets of the edges whose source is `u`, in edge order: the
contents the source pushes into `adjacencyList.get(u)`. -/
def targetsOf (edges : List WEdge) (u : String) : List String :=
  (edges.filter (fun e => decide (e.source = u))).map (·.target)

/-- The in-degree half of one `edges.forEach` step. -/
def degStep (dm : List (String × Int)) (e : WEdge) : List (String × Int) :=
  mapSet dm e.target ((mapGet dm e.target).getD 0 + 1)

/-- The adjacency half of one `edges.forEach` step. -/
def adjStep (am : List (String × List String)) (e : WEdge) : List (String × List String) :=
  match mapGet am e.source with
  | some lst => mapSet am e.source (lst ++ [e.target])
  | none => am

theorem addEdge_eq (st : List (String × Int) × List (String × List String)) (e : WEdge) :
    addEdge st e = (degStep st.1 e, adjStep st.2 e) := rfl

theorem buildMaps_eq (nodes : List WNode) (edges : List WEdge) :
    buildMaps nodes edges =
      (edges.foldl degStep (initInDegree nodes), edges.foldl adjStep (initAdjacency nodes)) := by
  unfold buildMaps
  generalize initInDegree nodes = dm0
  generalize initAdjacency nodes = am0
  induction edges generalizing dm0 am0 with
  | nil => simp
  | cons e es ih => simp [addEdge_eq, ih]

theorem inCount_cons (e : WEdge) (es : List WEdge) (v : String) :
    inCount (e :: es) v = (if e.target = v then 1 else 0) + inCount es v := by
  by_cases h : e.target = v <;> simp [inCount, List.filter_cons, h] <;> omega

theorem targetsOf_cons (e : WEdge) (es : List WEdge) (u : String) :
    targetsOf (e :: es) u = (if e.source = u then [e.target] else []) ++ targetsOf es u := by
  by_cases h : e.source = u <;> simp [targetsOf, List.filter_cons, h]

theorem mapGet_initFold {β : Type} (nodes : List WNode) (acc : List (String × β)) (c : β)
    (u : String) :
    mapGet (nodes.foldl (fun m n => mapSet m n.id c) acc) u =
      if u ∈ nodeIds nodes then some c else mapGet acc u := by
  induction nodes generalizing acc with
  | nil => simp [nodeIds]
  | cons n ns ih =>
    simp only [List.foldl_cons, ih, nodeIds, List.map_cons, List.mem_cons]
    by_cases hm : u ∈ List.map (fun x => x.id) ns
    · simp [nodeIds, hm]
    · by_cases he : u = n.id
      · simp [nodeIds, hm, he, mapGet_mapSet_self]
      · simp [nodeIds, hm, he, mapGet_mapSet_ne _ _ (fun hh => he hh.symm)]

theorem mapKeys_initFold {β : Type} (nodes : List WNode) (acc : List (String × β)) (c : β)
    (hnd : (mapKeys acc ++ nodeIds nodes).Nodup) :
    mapKeys (nodes.foldl (fun m n => mapSet m n.id c) acc) = mapKeys acc ++ nodeIds nodes := by
  induction nodes generalizing acc with
  | nil => simp [nodeIds]
  | cons n ns ih =>
    have heq : mapKeys acc ++ nodeIds (n :: ns) = (mapKeys acc ++ [n.id]) ++ nodeIds ns := by
      simp [nodeIds]
    have hnd' : ((mapKeys acc ++ [n.id]) ++ nodeIds ns).Nodup := heq ▸ hnd
    have hnotmem : n.id ∉ mapKeys acc := by
      intro hmem
      have hdisj := (List.nodup_append.mp hnd).2.2
      exact hdisj hmem (by simp [nodeIds])
    have hkeys : mapKeys (mapSet acc n.id c) = mapKeys acc ++ [n.id] := by
      rw [mapSet_eq_append_of_not_mem _ _ _ hnotmem]; simp [mapKeys]
    simp only [List.foldl_cons]
    rw [ih (mapSet acc n.id c) (by rw [hkeys]; exact hnd'), hkeys]
    simp [nodeIds, List.append_assoc]

theorem initInDegree_keys (nodes : List WNode) (hnd : (nodeIds nodes).Nodup) :
    mapKeys (initInDegree nodes) = nodeIds nodes := by
  have := mapKeys_initFold nodes ([] : List (String × Int)) 0 (by simpa [mapKeys] using hnd)
  simpa [initInDegree, mapKeys] using this

theorem initAdjacency_keys (nodes : List WNode) (hnd : (nodeIds nodes).Nodup) :
    mapKeys (initAdjacency nodes) = nodeIds nodes := by
  have := mapKeys_initFold nodes ([] : List (String × List String)) [] (by simpa [mapKeys] using hnd)
  simpa [initAdjacency, mapKeys] using this

theorem mapGet_initInDegree (nodes : List WNode) (u : String) :
    mapGet (initInDegree nodes) u = if u ∈ nodeIds nodes then some 0 else none := by
  have := mapGet_initFold nodes ([] : List (String × Int)) 0 u
  simpa [initInDegree, mapGet] using this

theorem mapGet_initAdjacency (nodes : List WNode) (u : String) :
    mapGet (initAdjacency nodes) u = if u ∈ nodeIds nodes then some [] else none := by
  have := mapGet_initFold nodes ([] : List (String × List String)) [] u
  simpa [initAdjacency, mapGet] using this

theorem mapGet_adjFold (edges : List WEdge) (am : List (String × List String)) (u : String) :
    mapGet (edges.foldl adjStep am) u = (mapGet am u).map (fun l => l ++ targetsOf edges u) := by
  induction edges generalizing am with
  | nil => rcases h : mapGet am u with _ | l <;> simp [targetsOf, h]
  | cons e es ih =>
    simp only [List.foldl_cons, ih, targetsOf_cons]
    rcases hsrc : mapGet am e.source with _ | lst
    · simp only [adjStep, hsrc]
      by_cases hu : e.source = u
      · subst hu; simp [hsrc]
      · cases mapGet am u <;> simp [hu]
    · simp only [adjStep, hsrc]
      by_cases hu : e.source = u
      · subst hu
        simp [mapGet_mapSet_self, hsrc]
      · rw [mapGet_mapSet_ne _ _ hu]
        cases mapGet am u <;> simp [hu]

/-- Adjacency list after `buildMaps`: each real node id maps to the list of
its edge targets in edge order; other keys are absent. -/
theorem mapGet_buildAdj (nodes : List WNode) (edges : List WEdge) (u : String) :
    mapGet (buildMaps nodes edges).2 u =
      if u ∈ nodeIds nodes then some (targetsOf edges u) else none := by
  rw [buildMaps_eq]
  simp only [mapGet_adjFold, mapGet_initAdjacency]
  by_cases h : u ∈ nodeIds nodes <;> simp [h]

theorem mapGet_degFold (edges : List WEdge) (dm : List (String × Int)) (v : String) :
    mapGet (edges.foldl degStep dm) v =
      if inCount edges v = 0 then mapGet dm v
      else some ((mapGet dm v).getD 0 + (inCount edges v : Int)) := by
  induction edges generalizing dm with
  | nil => simp [inCount]
  | cons e es ih =>
    simp only [List.foldl_cons, ih, inCount_cons]
    by_cases ht : e.target = v
    · subst ht
      have hget : mapGet (degStep dm e) e.target =
          some ((mapGet dm e.target).getD 0 + 1) := by
        simp [degStep, mapGet_mapSet_self]
      by_cases hc : inCount es e.target = 0
      · simp [hc, hget]
      · simp only [hc, if_neg, ite_false, hget]
        rw [if_neg (by omega)]
        simp only [Option.getD_some]
        push_cast
        ring
    · have hget : mapGet (degStep dm e) v = mapGet dm v := by
        simp [degStep, mapGet_mapSet_ne _ _ ht]
      by_cases hc : inCount es v = 0 <;> simp [ht, hc, hget]

/-- In-degree map after `buildMaps`: a key is present iff it is a real node id
or the target of some edge, and its value is the full in-edge count. -/
theorem mapGet_buildDeg (nodes : List WNode) (edges : List WEdge) (v : String) :
    mapGet (buildMaps nodes edges).1 v =
      if v ∈ nodeIds nodes ∨ inCount edges v ≠ 0 then some (inCount edges v : Int) else none := by
  rw [buildMaps_eq]
  simp only [mapGet_degFold, mapGet_initInDegree]
  by_cases hid : v ∈ nodeIds nodes
  · by_cases hc : inCount edges v = 0 <;> simp [hid, hc]
  · by_cases hc : inCount edges v = 0 <;> simp [hid, hc]

theorem mapKeys_degFold (edges : List WEdge) (dm : List (String × Int)) :
    ∃ extra, mapKeys (edges.foldl degStep dm) = mapKeys dm ++ extra := by
  induction edges generalizing dm with
  | nil => exact ⟨[], by simp⟩
  | cons e es ih =>
    obtain ⟨extra, hx⟩ := ih (degStep dm e)
    rw [List.foldl_cons, hx]
    unfold degStep
    rw [mapKeys_mapSet]
    by_cases h : e.target ∈ mapKeys dm
    · exact ⟨extra, by simp [h]⟩
    · exact ⟨e.target :: extra, by simp [h]⟩

theorem mapKeys_degFold_nodup (edges : List WEdge) (dm : List (String × Int))
    (h : (mapKeys dm).Nodup) : (mapKeys (edges.foldl degStep dm)).Nodup := by
  induction edges generalizing dm with
  | nil => exact h
  | cons e es ih => exact ih _ (mapKeys_mapSet_nodup _ _ _ h)

theorem length_degFold_le (edges : List WEdge) (dm : List (String × Int)) :
    (edges.foldl degStep dm).length ≤ dm.length + edges.length := by
  induction edges generalizing dm with
  | nil => simp
  | cons e es ih =>
    calc (List.foldl degStep (degStep dm e) es).length
        ≤ (degStep dm e).length + es.length := ih _
      _ ≤ (dm.length + 1) + es.length := by
          exact Nat.add_le_add_right (length_mapSet_le _ _ _) _
      _ = dm.length + (e :: es).length := by simp; omega

theorem length_initInDegree_le (nodes : List WNode) :
    (initInDegree nodes).length ≤ nodes.length := by
  unfold initInDegree
  suffices h : ∀ acc : List (String × Int),
      (nodes.foldl (fun m n => mapSet m n.id 0) acc).length ≤ acc.length + nodes.length by
    simpa using h []
  induction nodes with
  | nil => simp
  | cons n ns ih =>
    intro acc
    calc (List.foldl (fun m n => mapSet m n.id 0) (mapSet acc n.id 0) ns).length
        ≤ (mapSet acc n.id 0).length + ns.length := ih _
      _ ≤ (acc.length + 1) + ns.length := Nat.add_le_add_right (length_mapSet_le _ _ _) _
      _ = acc.length + (n :: ns).length := by simp; omega

/-- The in-degree map built by `buildMaps` has at most
`nodes.length + edges.length` entries, so the fuel given to `kahnLoop`
strictly exceeds its key count. -/
theorem length_buildDeg_le (nodes : List WNode) (edges : List WEdge) :
    (buildMaps nodes edges).1.length ≤ nodes.length + edges.length := by
  rw [buildMaps_eq]
  calc (edges.foldl degStep (initInDegree nodes)).length
      ≤ (initInDegree nodes).length + edges.length := length_degFold_le _ _
    _ ≤ nodes.length + edges.length :=
        Nat.add_le_add_right (length_initInDegree_le nodes) _

theorem initInDegree_nodup_keys (nodes : List WNode) :
    (mapKeys (initInDegree nodes)).Nodup := by
  unfold initInDegree
  suffices h : ∀ acc : List (String × Int), (mapKeys acc).Nodup →
      (mapKeys (nodes.foldl (fun m n => mapSet m n.id 0) acc)).Nodup by
    exact h [] (by simp [mapKeys])
  induction nodes with
  | nil => intro acc h; simpa using h
  | cons n ns ih =>
    intro acc h
    exact ih _ (mapKeys_mapSet_nodup _ _ _ h)

theorem buildDeg_nodup_keys (nodes : List WNode) (edges : List WEdge) :
    (mapKeys (buildMaps nodes edges).1).Nodup := by
  rw [buildMaps_eq]
  exact mapKeys_degFold_nodup _ _ (initInDegree_nodup_keys nodes)

/-- Structure of the in-degree map for a graph with distinct node ids: first
the node ids in supply order with their full in-edge counts, then the dangling
edge targets, each with a strictly positive count. -/
theorem buildDeg_structure (nodes : List WNode) (edges : List WEdge)
    (hnd : (nodeIds nodes).Nodup) :
    ∃ extra, (buildMaps nodes edges).1 =
        (nodeIds nodes).map (fun i => (i, (inCount edges i : Int))) ++ extra ∧
      ∀ p ∈ extra, p.1 ∉ nodeIds nodes ∧ 1 ≤ p.2 := by
  obtain ⟨extraK, hkeys⟩ := mapKeys_degFold edges (initInDegree nodes)
  have hkeys' : mapKeys (buildMaps nodes edges).1 = nodeIds nodes ++ extraK := by
    rw [buildMaps_eq]
    simpa [initInDegree_keys nodes hnd] using hkeys
  have hknd : (nodeIds nodes ++ extraK).Nodup := hkeys' ▸ buildDeg_nodup_keys nodes edges
  have hget : ∀ k ∈ nodeIds nodes ++ extraK,
      mapGet (buildMaps nodes edges).1 k = some ((inCount edges k : Int)) := by
    intro k hk
    have hsome := mapGet_isSome_of_mem _ k (by rw [hkeys']; exact hk)
    rw [mapGet_buildDeg] at hsome ⊢
    by_cases hcond : k ∈ nodeIds nodes ∨ inCount edges k ≠ 0
    · simp [hcond]
    · simp [hcond] at hsome
  have hstruct := assoc_eq_of_keys (buildMaps nodes edges).1 (nodeIds nodes ++ extraK)
    (fun k => (inCount edges k : Int)) hkeys' hknd hget
  refine ⟨extraK.map (fun k => (k, (inCount edges k : Int))), ?_, ?_⟩
  · rw [hstruct, List.map_append]
  · intro p hp
    simp only [List.mem_map] at hp
    obtain ⟨k, hk, rfl⟩ := hp
    have hnotid : k ∉ nodeIds nodes := by
      intro hmem
      exact (List.disjoint_of_nodup_append hknd) hmem hk
    refine ⟨hnotid, ?_⟩
    have hmemkeys : k ∈ mapKeys (buildMaps nodes edges).1 := by
      rw [hkeys']; exact List.mem_append_right _ hk
    have hsome := mapGet_isSome_of_mem _ k hmemkeys
    rw [mapGet_buildDeg] at hsome
    by_cases hc : inCount edges k = 0
    · simp [hnotid, hc] at hsome
    · simp only
      omega

/-- The seed queue (all zero-in-degree keys in map order) for a graph with
distinct node ids is exactly the node ids with no incoming edge, in the
original node order: dangling targets never qualify. -/
theorem seedQueue_buildMaps (nodes : List WNode) (edges : List WEdge)
    (hnd : (nodeIds nodes).Nodup) :
    seedQueue (buildMaps nodes edges).1 =
      (nodeIds nodes).filter (fun v => decide (inCount edges v = 0)) := by
  obtain ⟨extra, hstruct, hextra⟩ := buildDeg_structure nodes edges hnd
  rw [seedQueue, hstruct, List.filter_append]
  have hB : extra.filter (fun p => decide (p.2 = 0)) = [] := by
    rw [List.filter_eq_nil]
    intro p hp
    have := (hextra p hp).2
    simp only [decide_eq_true_eq]
    omega
  rw [hB, List.append_nil, List.filter_map]
  rw [List.map_map]
  have hpred : ((fun p : String × Int => decide (p.2 = 0)) ∘
      (fun i => (i, (inCount edges i : Int)))) = fun v => decide (inCount edges v = 0) := by
    funext v
    simp
  rw [hpred, show ((fun x : String × Int => x.1) ∘ fun i : String =>
    (i, (inCount edges i : Int))) = id from funext (fun x => rfl), List.map_id]

/-! ### Degree bookkeeping for the Kahn loop

During the loop, an edge `u → v` has been "discounted" from `v`'s stored
in-degree exactly when `u` is a popped real node id (popped nodes process
their adjacency list once; ids absent from the node set have no adjacency
entry, so edges out of them are never discounted). -/

/-- Number of edges into `v` not yet discounted after the nodes in `result`
have been popped and fully processed. -/
def pendCount (edges : List WEdge) (ids result : List String) (v : String) : Nat :=
  (edges.filter (fun e => decide (e.target = v) &&
    !(decide (e.source ∈ result) && decide (e.source ∈ ids)))).length

theorem pendCount_nil (edges : List WEdge) (ids : List String) (v : String) :
    pendCount edges ids [] v = inCount edges v := by
  simp [pendCount, inCount]

theorem pendCount_le_inCount (edges : List WEdge) (ids result : List String) (v : String) :
    pendCount edges ids result v ≤ inCount edges v := by
  unfold pendCount inCount
  apply List.length_le_of_sublist
  apply List.monotone_filter_right
  intro e he
  simp only [Bool.and_eq_true, decide_eq_true_eq] at he
  simp [he.1]

theorem pendCount_eq_zero_iff (edges : List WEdge) (ids result : List String) (v : String) :
    pendCount edges ids result v = 0 ↔
      ∀ e ∈ edges, e.target = v → e.source ∈ result ∧ e.source ∈ ids := by
  unfold pendCount
  rw [List.length_eq_zero, List.filter_eq_nil]
  constructor
  · intro h e he htv
    have h2 := h e he
    simp [htv] at h2
    exact h2
  · intro h e he
    by_cases htv : e.target = v
    · have := h e he htv
      simp [htv, this.1, this.2]
    · simp [htv]

theorem pendCount_append_not_id (edges : List WEdge) (ids result : List String)
    (nodeId : String) (h : nodeId ∉ ids) (v : String) :
    pendCount edges ids (result ++ [nodeId]) v = pendCount edges ids result v := by
  unfold pendCount
  congr 1
  apply List.filter_congr
  intro e _
  by_cases hs : e.source ∈ ids
  · have hne : e.source ≠ nodeId := fun hh => h (hh ▸ hs)
    have : (e.source ∈ result ++ [nodeId]) ↔ e.source ∈ result := by
      simp [List.mem_append, hne]
    simp [this]
  · simp [hs]

theorem count_targetsOf (edges : List WEdge) (u v : String) :
    (targetsOf edges u).count v =
      (edges.filter (fun e => decide (e.source = u) && decide (e.target = v))).length := by
  induction edges with
  | nil => simp [targetsOf]
  | cons e es ih =>
    rw [targetsOf_cons, List.filter_cons]
    by_cases hsu : e.source = u
    · by_cases htv : e.target = v <;>
        simp [hsu, htv, List.count_cons, ih] <;> omega
    · simp [hsu, ih]

theorem pendCount_append_id (edges : List WEdge) (ids result : List String)
    (nodeId : String) (hid : nodeId ∈ ids) (hnr : nodeId ∉ result) (v : String) :
    pendCount edges ids result v =
      pendCount edges ids (result ++ [nodeId]) v + (targetsOf edges nodeId).count v := by
  rw [count_targetsOf]
  unfold pendCount
  rw [← List.countP_eq_length_filter, ← List.countP_eq_length_filter,
    ← List.countP_eq_length_filter]
  induction edges with
  | nil => simp
  | cons e es ih =>
    rw [List.countP_cons, List.countP_cons, List.countP_cons, ih]
    by_cases htv : e.target = v
    · by_cases hA : e.source = nodeId
      · have hB : e.source ∉ result := hA ▸ hnr
        have hmem : e.source ∈ result ++ [nodeId] := by simp [hA]
        have h1 : (decide (e.target = v) &&
            !(decide (e.source ∈ result) && decide (e.source ∈ ids))) = true := by
          simp [htv, hB]
        have h2 : (decide (e.target = v) &&
            !(decide (e.source ∈ result ++ [nodeId]) && decide (e.source ∈ ids))) = false := by
          simp [htv, hmem, hA ▸ hid]
        have h3 : (decide (e.source = nodeId) && decide (e.target = v)) = true := by
          simp [htv, hA]
        rw [h1, h2, h3]
        norm_num
        omega
      · have hmem : decide (e.source ∈ result ++ [nodeId]) = decide (e.source ∈ result) := by
          apply decide_eq_decide.mpr
          simp [List.mem_append, hA]
        have h3 : (decide (e.source = nodeId) && decide (e.target = v)) = false := by
          simp [hA]
        rw [hmem, h3]
        norm_num
        omega
    · have h1 : ∀ b : Bool, (decide (e.target = v) && b) = false := by
        intro b
        simp [htv]
      have h3 : (decide (e.source = nodeId) && decide (e.target = v)) = false := by
        simp [htv]
      rw [h1, h1, h3]
      norm_num

theorem mem_of_mapGet {β : Type} (m : List (String × β)) (k : String) (v : β)
    (h : mapGet m k = some v) : (k, v) ∈ m := by
  induction m with
  | nil => simp [mapGet] at h
  | cons p rest ih =>
    obtain ⟨a, b⟩ := p
    by_cases hp : a = k
    · simp only [mapGet, if_pos hp] at h
      subst hp
      rw [Option.some_inj] at h
      subst h
      exact List.mem_cons_self _ _
    · simp only [mapGet, if_neg hp] at h
      exact List.mem_cons_of_mem _ (ih h)

theorem mapGet_of_mem_nodup {β : Type} (m : List (String × β)) (k : String) (v : β)
    (hnd : (mapKeys m).Nodup) (h : (k, v) ∈ m) : mapGet m k = some v := by
  induction m with
  | nil => simp at h
  | cons p rest ih =>
    rcases List.mem_cons.mp h with h1 | h1
    · simp [mapGet, ← h1]
    · have hp : p.1 ≠ k := by
        intro hh
        have : k ∈ mapKeys rest := by
          simp only [mapKeys, List.mem_map]
          exact ⟨(k, v), h1, rfl⟩
        rw [← hh] at this
        exact (List.nodup_cons.mp (by simpa [mapKeys] using hnd)).1 this
      simp only [mapGet, if_neg hp]
      exact ih (by simpa [mapKeys] using (List.nodup_cons.mp (by simpa [mapKeys] using hnd)).2) h1

theorem mem_keys_of_isSome {β : Type} (m : List (String × β)) (k : String)
    (h : (mapGet m k).isSome) : k ∈ mapKeys m := by
  by_contra hc
  rw [mapGet_eq_none_of_not_mem m k hc] at h
  simp at h

theorem mem_seedQueue (dm : List (String × Int)) (v : String) :
    v ∈ seedQueue dm ↔ ∃ p ∈ dm, p.1 = v ∧ p.2 = 0 := by
  unfold seedQueue
  simp only [List.mem_map, List.mem_filter, decide_eq_true_eq]
  constructor
  · rintro ⟨p, ⟨hp, hz⟩, rfl⟩
    exact ⟨p, hp, rfl, hz⟩
  · rintro ⟨p, hp, rfl, hz⟩
    exact ⟨p, ⟨hp, hz⟩, rfl⟩

theorem mem_targetsOf_inCount {edges : List WEdge} {u v : String}
    (h : v ∈ targetsOf edges u) : inCount edges v ≠ 0 := by
  unfold targetsOf at h
  simp only [List.mem_map, List.mem_filter, decide_eq_true_eq] at h
  obtain ⟨e, ⟨he, _⟩, rfl⟩ := h
  unfold inCount
  intro hc
  rw [List.length_eq_zero, List.filter_eq_nil] at hc
  exact absurd (by simp) (hc e he)

theorem target_mem_buildDeg_keys (nodes : List WNode) (edges : List WEdge) {v : String}
    (h : inCount edges v ≠ 0) : v ∈ mapKeys (buildMaps nodes edges).1 := by
  apply mem_keys_of_isSome
  rw [mapGet_buildDeg]
  simp [h]

theorem id_mem_buildDeg_keys (nodes : List WNode) (edges : List WEdge) {v : String}
    (h : v ∈ nodeIds nodes) : v ∈ mapKeys (buildMaps nodes edges).1 := by
  apply mem_keys_of_isSome
  rw [mapGet_buildDeg]
  simp [h]

theorem mapGet_buildDeg_of_mem (nodes : List WNode) (edges : List WEdge) {v : String}
    (h : v ∈ mapKeys (buildMaps nodes edges).1) :
    mapGet (buildMaps nodes edges).1 v = some ((inCount edges v : Int)) := by
  have hsome := mapGet_isSome_of_mem _ v h
  rw [mapGet_buildDeg] at hsome ⊢
  by_cases hcond : v ∈ nodeIds nodes ∨ inCount edges v ≠ 0
  · simp [hcond]
  · simp [hcond] at hsome

/-! ### The Kahn loop invariant -/

/-- Invariant of the embedded `while` loop at iteration boundaries.  `result`
is what has been popped (in order), `queue` the current queue and `dm` the
current in-degree map. -/
structure KahnInv (nodes : List WNode) (edges : List WEdge)
    (dm : List (String × Int)) (queue result : List String) : Prop where
  keys : mapKeys dm = mapKeys (buildMaps nodes edges).1
  deg : ∀ v ∈ mapKeys (buildMaps nodes edges).1,
    mapGet dm v = some ((pendCount edges (nodeIds nodes) result v : Int))
  nodup : (result ++ queue).Nodup
  sub : ∀ v ∈ result ++ queue, v ∈ mapKeys (buildMaps nodes edges).1
  zero : ∀ v ∈ result ++ queue, pendCount edges (nodeIds nodes) result v = 0
  topo : ∀ e ∈ edges, e.target ∈ result →
    e.source ∈ result.take (result.indexOf e.target)
  complete : (∀ e ∈ edges, e.source ∈ nodeIds nodes) → ∀ v ∈ nodeIds nodes,
    pendCount edges (nodeIds nodes) result v = 0 → v ∈ result ++ queue

/-- Invariant during the inner neighbour fold of one pop of `nodeId`: `done`
is the prefix of `nodeId`'s adjacency list already processed. -/
structure FoldInv (nodes : List WNode) (edges : List WEdge) (nodeId : String)
    (result : List String) (done : List String)
    (dm : List (String × Int)) (q : List String) : Prop where
  keys : mapKeys dm = mapKeys (buildMaps nodes edges).1
  deg : ∀ v ∈ mapKeys (buildMaps nodes edges).1,
    mapGet dm v =
      some ((pendCount edges (nodeIds nodes) result v : Int) - (done.count v : Int))
  nodup : ((result ++ [nodeId]) ++ q).Nodup
  sub : ∀ v ∈ (result ++ [nodeId]) ++ q, v ∈ mapKeys (buildMaps nodes edges).1
  zero : ∀ v ∈ (result ++ [nodeId]) ++ q,
    pendCount edges (nodeIds nodes) result v ≤ done.count v
  complete : (∀ e ∈ edges, e.source ∈ nodeIds nodes) → ∀ v ∈ nodeIds nodes,
    pendCount edges (nodeIds nodes) result v ≤ done.count v → v ∈ (result ++ [nodeId]) ++ q

theorem foldInv_step (nodes : List WNode) (edges : List WEdge) (nodeId : String)
    (result done : List String) (dm : List (String × Int)) (q : List String) (n : String)
    (hn : n ∈ targetsOf edges nodeId)
    (inv : FoldInv nodes edges nodeId result done dm q) :
    FoldInv nodes edges nodeId result (done ++ [n])
      (processNeighbor (dm, q) n).1 (processNeighbor (dm, q) n).2 := by
  have hkey : n ∈ mapKeys (buildMaps nodes edges).1 :=
    target_mem_buildDeg_keys nodes edges (mem_targetsOf_inCount hn)
  have hget : mapGet dm n =
      some ((pendCount edges (nodeIds nodes) result n : Int) - (done.count n : Int)) :=
    inv.deg n hkey
  have hnd : (mapGet dm n).getD 0 - 1 =
      (pendCount edges (nodeIds nodes) result n : Int) - ((done ++ [n]).count n : Int) := by
    rw [hget]
    have hc : (done ++ [n]).count n = done.count n + 1 := by
      rw [List.count_append]
      simp
    rw [hc]
    simp only [Option.getD_some]
    push_cast
    ring
  have hcount_ne : ∀ v, v ≠ n → (done ++ [n]).count v = done.count v := by
    intro v hv
    rw [List.count_append]
    have h0 : [n].count v = 0 := by
      simp [hv]
    omega
  have hcount_le : ∀ v, done.count v ≤ (done ++ [n]).count v := by
    intro v
    rw [List.count_append]
    omega
  unfold processNeighbor
  by_cases hdeg0 : (mapGet dm n).getD 0 - 1 = 0
  · -- the decremented degree hits 0: `n` is enqueued
    have hpush : pendCount edges (nodeIds nodes) result n = (done ++ [n]).count n := by
      rw [hnd] at hdeg0
      omega
    have hnotin : n ∉ (result ++ [nodeId]) ++ q := by
      intro hmem
      have hz := inv.zero n hmem
      have : (done ++ [n]).count n = done.count n + 1 := by
        rw [List.count_append]
        simp
      omega
    simp only [if_pos hdeg0]
    refine ⟨?_, ?_, ?_, ?_, ?_, ?_⟩
    · rw [mapKeys_mapSet_of_mem _ _ _ (inv.keys ▸ hkey)]
      exact inv.keys
    · intro v hv
      by_cases hvn : v = n
      · subst hvn
        rw [mapGet_mapSet_self, hnd]
      · rw [mapGet_mapSet_ne _ _ (Ne.symm hvn), inv.deg v hv,
          hcount_ne v hvn]
    · rw [← List.append_assoc]
      exact List.nodup_append.mpr ⟨inv.nodup, List.nodup_singleton n,
        fun a ha hb => by simp at hb; exact hnotin (hb ▸ ha)⟩
    · intro v hv
      rw [← List.append_assoc] at hv
      rcases List.mem_append.mp hv with hv | hv
      · exact inv.sub v hv
      · simp at hv
        exact hv ▸ hkey
    · intro v hv
      rw [← List.append_assoc] at hv
      rcases List.mem_append.mp hv with hv | hv
      · exact le_trans (inv.zero v hv) (hcount_le v)
      · simp at hv
        subst hv
        omega
    · intro hsrc v hvid hvle
      by_cases hvn : v = n
      · subst hvn
        simp
      · rw [hcount_ne v hvn] at hvle
        have := inv.complete hsrc v hvid hvle
        rw [← List.append_assoc]
        exact List.mem_append_left _ this
  · -- the decremented degree is nonzero: queue unchanged
    simp only [if_neg hdeg0]
    refine ⟨?_, ?_, inv.nodup, inv.sub, ?_, ?_⟩
    · rw [mapKeys_mapSet_of_mem _ _ _ (inv.keys ▸ hkey)]
      exact inv.keys
    · intro v hv
      by_cases hvn : v = n
      · subst hvn
        rw [mapGet_mapSet_self, hnd]
      · rw [mapGet_mapSet_ne _ _ (Ne.symm hvn), inv.deg v hv,
          hcount_ne v hvn]
    · intro v hv
      exact le_trans (inv.zero v hv) (hcount_le v)
    · intro hsrc v hvid hvle
      by_cases hvn : v = n
      · subst hvn
        have hcnt : (done ++ [v]).count v = done.count v + 1 := by
          rw [List.count_append]
          simp
        have hne2 : pendCount edges (nodeIds nodes) result v ≠ (done ++ [v]).count v := by
          intro hh
          rw [hnd] at hdeg0
          omega
        exact inv.complete hsrc v hvid (by omega)
      · rw [hcount_ne v hvn] at hvle
        exact inv.complete hsrc v hvid hvle

theorem foldInv_run (nodes : List WNode) (edges : List WEdge) (nodeId : String)
    (result : List String) :
    ∀ todo done (dm : List (String × Int)) (q : List String),
    targetsOf edges nodeId = done ++ todo →
    FoldInv nodes edges nodeId result done dm q →
    FoldInv nodes edges nodeId result (done ++ todo)
      (todo.foldl processNeighbor (dm, q)).1 (todo.foldl processNeighbor (dm, q)).2 := by
  intro todo
  induction todo with
  | nil =>
    intro done dm q _ inv
    simpa using inv
  | cons n todo' ih =>
    intro done dm q hsplit inv
    have hn : n ∈ targetsOf edges nodeId := by
      rw [hsplit]
      simp
    have hstep := foldInv_step nodes edges nodeId result done dm q n hn inv
    have hsplit' : targetsOf edges nodeId = (done ++ [n]) ++ todo' := by
      rw [hsplit]
      simp
    have := ih (done ++ [n]) (processNeighbor (dm, q) n).1 (processNeighbor (dm, q) n).2
      hsplit' hstep
    simpa [List.append_assoc] using this

theorem kahnInv_step (nodes : List WNode) (edges : List WEdge)
    (dm : List (String × Int)) (nodeId : String) (rest result : List String)
    (inv : KahnInv nodes edges dm (nodeId :: rest) result) :
    KahnInv nodes edges
      ((((mapGet (buildMaps nodes edges).2 nodeId).getD []).foldl processNeighbor (dm, rest)).1)
      ((((mapGet (buildMaps nodes edges).2 nodeId).getD []).foldl processNeighbor (dm, rest)).2)
      (result ++ [nodeId]) := by
  have hnotin : nodeId ∉ result := by
    have h := inv.nodup
    intro hmem
    exact (List.disjoint_of_nodup_append h) hmem (by simp)
  have hzero_nodeId : pendCount edges (nodeIds nodes) result nodeId = 0 :=
    inv.zero nodeId (by simp)
  have hsrc_result : ∀ e ∈ edges, e.target = nodeId →
      e.source ∈ result ∧ e.source ∈ nodeIds nodes :=
    (pendCount_eq_zero_iff _ _ _ _).mp hzero_nodeId
  -- `topo` is preserved the same way in both branches below
  have htopo : ∀ e ∈ edges, e.target ∈ result ++ [nodeId] →
      e.source ∈ (result ++ [nodeId]).take ((result ++ [nodeId]).indexOf e.target) := by
    intro e he htgt
    by_cases hmem : e.target ∈ result
    · rw [List.indexOf_append_of_mem hmem,
        List.take_append_of_le_length (le_of_lt (List.indexOf_lt_length.mpr hmem))]
      exact inv.topo e he hmem
    · have htgt' : e.target = nodeId := by
        rcases List.mem_append.mp htgt with h | h
        · exact absurd h hmem
        · simpa using h
      subst htgt'
      rw [List.indexOf_append_of_not_mem hmem]
      simp only [List.indexOf_cons_self, Nat.add_zero]
      rw [List.take_append_of_le_length (le_refl _), List.take_length]
      exact (hsrc_result e he rfl).1
  have heq : result ++ nodeId :: rest = (result ++ [nodeId]) ++ rest :=
    List.append_cons result nodeId rest
  by_cases hid : nodeId ∈ nodeIds nodes
  · -- a real node: its adjacency list is its full target list
    have hadj : (mapGet (buildMaps nodes edges).2 nodeId).getD [] = targetsOf edges nodeId := by
      rw [mapGet_buildAdj]
      simp [hid]
    have hinit : FoldInv nodes edges nodeId result [] dm rest := by
      refine ⟨inv.keys, ?_, heq ▸ inv.nodup, ?_, ?_, ?_⟩
      · intro v hv
        rw [inv.deg v hv]
        simp
      · intro v hv
        exact inv.sub v (heq.symm ▸ hv)
      · intro v hv
        have h := inv.zero v (heq.symm ▸ hv)
        simp [h]
      · intro hsrc v hvid hvle
        have h0 : pendCount edges (nodeIds nodes) result v = 0 :=
          Nat.le_zero.mp (by simpa using hvle)
        exact heq ▸ inv.complete hsrc v hvid h0
    have hrun := foldInv_run nodes edges nodeId result (targetsOf edges nodeId) [] dm rest
      (by simp) hinit
    rw [hadj]
    have hfin : FoldInv nodes edges nodeId result (targetsOf edges nodeId)
        ((targetsOf edges nodeId).foldl processNeighbor (dm, rest)).1
        ((targetsOf edges nodeId).foldl processNeighbor (dm, rest)).2 := by
      simpa using hrun
    have hpend := fun v => pendCount_append_id edges (nodeIds nodes) result nodeId hid hnotin v
    refine ⟨hfin.keys, ?_, hfin.nodup, hfin.sub, ?_, htopo, ?_⟩
    · intro v hv
      rw [hfin.deg v hv]
      have h2 := hpend v
      congr 1
      omega
    · intro v hv
      have h1 := hfin.zero v hv
      have h2 := hpend v
      omega
    · intro hsrc v hvid hvle
      have h2 := hpend v
      exact hfin.complete hsrc v hvid (by omega)
  · -- a dangling target being popped: no adjacency entry, nothing to process
    have hadj : (mapGet (buildMaps nodes edges).2 nodeId).getD [] = [] := by
      rw [mapGet_buildAdj]
      simp [hid]
    rw [hadj]
    simp only [List.foldl_nil]
    have hpend := fun v => pendCount_append_not_id edges (nodeIds nodes) result nodeId hid v
    refine ⟨inv.keys, ?_, heq ▸ inv.nodup, ?_, ?_, htopo, ?_⟩
    · intro v hv
      rw [inv.deg v hv, hpend v]
    · intro v hv
      exact inv.sub v (heq.symm ▸ hv)
    · intro v hv
      rw [hpend v]
      exact inv.zero v (heq.symm ▸ hv)
    · intro hsrc v hvid hvle
      rw [hpend v] at hvle
      exact heq ▸ inv.complete hsrc v hvid hvle

theorem kahnLoop_zero (am : List (String × List String)) (dm : List (String × Int))
    (queue result : List String) : kahnLoop am 0 dm queue result = result := rfl

theorem kahnLoop_nil (am : List (String × List String)) (fuel : Nat)
    (dm : List (String × Int)) (result : List String) :
    kahnLoop am (fuel + 1) dm [] result = result := rfl

theorem kahnLoop_cons (am : List (String × List String)) (fuel : Nat)
    (dm : List (String × Int)) (nodeId : String) (rest result : List String) :
    kahnLoop am (fuel + 1) dm (nodeId :: rest) result =
      kahnLoop am fuel (((mapGet am nodeId).getD []).foldl processNeighbor (dm, rest)).1
        (((mapGet am nodeId).getD []).foldl processNeighbor (dm, rest)).2
        (result ++ [nodeId]) := rfl

/-- The invariant holds at the start of the loop. -/
theorem kahnInv_init (nodes : List WNode) (edges : List WEdge) :
    KahnInv nodes edges (buildMaps nodes edges).1
      (seedQueue (buildMaps nodes edges).1) [] := by
  refine ⟨rfl, ?_, ?_, ?_, ?_, ?_, ?_⟩
  · intro v hv
    rw [mapGet_buildDeg_of_mem nodes edges hv, pendCount_nil]
  · simp only [List.nil_append]
    have hsub : (seedQueue (buildMaps nodes edges).1).Sublist
        (mapKeys (buildMaps nodes edges).1) := by
      unfold seedQueue mapKeys
      exact List.Sublist.map _ (List.filter_sublist _)
    exact hsub.nodup (buildDeg_nodup_keys nodes edges)
  · intro v hv
    simp only [List.nil_append] at hv
    rw [mem_seedQueue] at hv
    obtain ⟨p, hp, hp1, _⟩ := hv
    exact hp1 ▸ List.mem_map.mpr ⟨p, hp, rfl⟩
  · intro v hv
    simp only [List.nil_append] at hv
    rw [mem_seedQueue] at hv
    obtain ⟨p, hp, hp1, hz⟩ := hv
    obtain ⟨a, b⟩ := p
    simp only at hp1 hz
    subst hp1
    subst hz
    have hmem : a ∈ mapKeys (buildMaps nodes edges).1 := List.mem_map.mpr ⟨(a, 0), hp, rfl⟩
    have h1 : mapGet (buildMaps nodes edges).1 a = some 0 :=
      mapGet_of_mem_nodup _ _ _ (buildDeg_nodup_keys nodes edges) hp
    have h2 := mapGet_buildDeg_of_mem nodes edges hmem
    rw [h1] at h2
    have h3 : ((inCount edges a : Int)) = 0 := (Option.some_inj.mp h2).symm
    rw [pendCount_nil]
    omega
  · intro e _ htgt
    simp at htgt
  · intro _ v hvid h0
    rw [pendCount_nil] at h0
    have hmem := id_mem_buildDeg_keys nodes edges hvid
    have h1 := mapGet_buildDeg_of_mem nodes edges hmem
    have h2 : (v, (0 : Int)) ∈ (buildMaps nodes edges).1 := by
      apply mem_of_mapGet
      rw [h1, h0]
      rfl
    simp only [List.nil_append]
    rw [mem_seedQueue]
    exact ⟨(v, 0), h2, rfl, rfl⟩

/-- Whatever the fuel, the loop exits in a state satisfying the invariant. -/
theorem kahnLoop_inv_exit (nodes : List WNode) (edges : List WEdge) :
    ∀ (fuel : Nat) (dm : List (String × Int)) (queue result : List String),
    KahnInv nodes edges dm queue result →
    ∃ dmF queueF, KahnInv nodes edges dmF queueF
        (kahnLoop (buildMaps nodes edges).2 fuel dm queue result) := by
  intro fuel
  induction fuel with
  | zero =>
    intro dm queue result inv
    exact ⟨dm, queue, by rwa [kahnLoop_zero]⟩
  | succ f ih =>
    intro dm queue result inv
    cases queue with
    | nil => exact ⟨dm, [], by rwa [kahnLoop_nil]⟩
    | cons nodeId rest =>
      rw [kahnLoop_cons]
      exact ih _ _ _ (kahnInv_step nodes edges dm nodeId rest result inv)

/-- With fuel exceeding the key count of the in-degree map, the loop always
exits with an empty queue (the embedded fuel never runs out, so the
fuel-indexed recursion is a faithful model of the source's `while` loop). -/
theorem kahnLoop_complete (nodes : List WNode) (edges : List WEdge) :
    ∀ (fuel : Nat) (dm : List (String × Int)) (queue result : List String),
    KahnInv nodes edges dm queue result →
    (buildMaps nodes edges).1.length + 1 ≤ fuel + result.length →
    ∃ dmF, KahnInv nodes edges dmF []
        (kahnLoop (buildMaps nodes edges).2 fuel dm queue result) := by
  intro fuel
  induction fuel with
  | zero =>
    intro dm queue result inv hfuel
    exfalso
    have hsub : result ⊆ mapKeys (buildMaps nodes edges).1 :=
      fun v hv => inv.sub v (List.mem_append_left _ hv)
    have hnd : result.Nodup := (List.nodup_append.mp inv.nodup).1
    have hle := (List.Nodup.subperm hnd hsub).length_le
    have hkl : (mapKeys (buildMaps nodes edges).1).length =
        (buildMaps nodes edges).1.length := by
      simp [mapKeys]
    omega
  | succ f ih =>
    intro dm queue result inv hfuel
    cases queue with
    | nil => exact ⟨dm, by rwa [kahnLoop_nil]⟩
    | cons nodeId rest =>
      rw [kahnLoop_cons]
      refine ih _ _ _ (kahnInv_step nodes edges dm nodeId rest result inv) ?_
      rw [List.length_append]
      simp only [List.length_singleton]
      omega

/-- The full run of the loop inside `buildExecutionOrder`: it ends with an
empty queue in a state satisfying the invariant. -/
theorem buildMaps_run (nodes : List WNode) (edges : List WEdge) :
    ∃ dmF, KahnInv nodes edges dmF []
      (kahnLoop (buildMaps nodes edges).2 (nodes.length + edges.length + 1)
        (buildMaps nodes edges).1 (seedQueue (buildMaps nodes edges).1) []) := by
  apply kahnLoop_complete nodes edges _ _ _ _ (kahnInv_init nodes edges)
  have := length_buildDeg_le nodes edges
  simp only [List.length_nil]
  omega

/-! ### Consequences of the final loop state -/

/-- The raw list computed by the Kahn loop inside `buildExecutionOrder`,
before the length check against `nodes.length`. -/
def rawOrder (nodes : List WNode) (edges : List WEdge) : List String :=
  kahnLoop (buildMaps nodes edges).2 (nodes.length + edges.length + 1)
    (buildMaps nodes edges).1 (seedQueue (buildMaps nodes edges).1) []

theorem buildExecutionOrder_eq (nodes : List WNode) (edges : List WEdge) :
    buildExecutionOrder nodes edges =
      if (rawOrder nodes edges).length ≠ nodes.length then
        Except.error "Workflow contains a cycle. Please check your connections."
      else Except.ok (rawOrder nodes edges) := rfl

theorem rawOrder_inv (nodes : List WNode) (edges : List WEdge) :
    ∃ dmF, KahnInv nodes edges dmF [] (rawOrder nodes edges) :=
  buildMaps_run nodes edges

theorem rawOrder_nodup (nodes : List WNode) (edges : List WEdge) :
    (rawOrder nodes edges).Nodup := by
  obtain ⟨dmF, inv⟩ := rawOrder_inv nodes edges
  simpa using inv.nodup

theorem rawOrder_sub (nodes : List WNode) (edges : List WEdge) :
    ∀ v ∈ rawOrder nodes edges, v ∈ mapKeys (buildMaps nodes edges).1 := by
  obtain ⟨dmF, inv⟩ := rawOrder_inv nodes edges
  intro v hv
  exact inv.sub v (by simpa using hv)

theorem rawOrder_topo (nodes : List WNode) (edges : List WEdge) :
    ∀ e ∈ edges, e.target ∈ rawOrder nodes edges →
      e.source ∈ (rawOrder nodes edges).take ((rawOrder nodes edges).indexOf e.target) := by
  obtain ⟨dmF, inv⟩ := rawOrder_inv nodes edges
  exact inv.topo

theorem rawOrder_complete (nodes : List WNode) (edges : List WEdge)
    (hsrc : ∀ e ∈ edges, e.source ∈ nodeIds nodes) :
    ∀ v ∈ nodeIds nodes, pendCount edges (nodeIds nodes) (rawOrder nodes edges) v = 0 →
      v ∈ rawOrder nodes edges := by
  obtain ⟨dmF, inv⟩ := rawOrder_inv nodes edges
  intro v hv h0
  simpa using inv.complete hsrc v hv h0

theorem indexOf_lt_of_mem_take {α : Type} [DecidableEq α] (l : List α) (a : α) :
    ∀ n, a ∈ l.take n → l.indexOf a < n := by
  induction l with
  | nil => intro n h; simp at h
  | cons x xs ih =>
    intro n h
    cases n with
    | zero => simp at h
    | succ m =>
      rw [List.take_succ_cons] at h
      by_cases hax : x = a
      · rw [List.indexOf_cons_eq _ hax]
        omega
      · rcases List.mem_cons.mp h with h1 | h1
        · exact absurd h1.symm hax
        · rw [List.indexOf_cons_ne _ hax]
          have := ih m h1
          omega

theorem inCount_target {edges : List WEdge} {v : String} (h : inCount edges v ≠ 0) :
    ∃ e ∈ edges, e.target = v := by
  unfold inCount at h
  rcases hfe : edges.filter (fun e => decide (e.target = v)) with _ | ⟨e, es⟩
  · rw [hfe] at h
    simp at h
  · have he : e ∈ edges.filter (fun e => decide (e.target = v)) := by
      rw [hfe]
      simp
    have := List.mem_filter.mp he
    exact ⟨e, this.1, by simpa using this.2⟩

theorem rawOrder_subset_ids (nodes : List WNode) (edges : List WEdge)
    (htgt : ∀ e ∈ edges, e.target ∈ nodeIds nodes) :
    ∀ v ∈ rawOrder nodes edges, v ∈ nodeIds nodes := by
  intro v hv
  have hk := rawOrder_sub nodes edges v hv
  have hsome := mapGet_isSome_of_mem _ v hk
  rw [mapGet_buildDeg] at hsome
  by_cases hc : v ∈ nodeIds nodes ∨ inCount edges v ≠ 0
  · rcases hc with hc | hc
    · exact hc
    · obtain ⟨e, he, rfl⟩ := inCount_target hc
      exact htgt e he
  · simp [hc] at hsome

/-- Any set of ids in which every member has an in-edge from another member
is disjoint from the loop's result (the key step for cycle detection). -/
theorem cycle_avoids_rawOrder (nodes : List WNode) (edges : List WEdge) (S : List String)
    (hSclosed : ∀ v ∈ S, ∃ u ∈ S, (WEdge.mk u v) ∈ edges) :
    ∀ v ∈ S, v ∉ rawOrder nodes edges := by
  suffices h : ∀ n, ∀ v ∈ S, v ∈ rawOrder nodes edges →
      (rawOrder nodes edges).indexOf v < n → False by
    intro v hv hmem
    exact h ((rawOrder nodes edges).length + 1) v hv hmem
      (by have := List.indexOf_lt_length.mpr hmem; omega)
  intro n
  induction n with
  | zero => intro v _ _ h; omega
  | succ m ih =>
    intro v hv hmem hlt
    obtain ⟨u, hu, hedge⟩ := hSclosed v hv
    have htopo := rawOrder_topo nodes edges (WEdge.mk u v) hedge hmem
    have humem : u ∈ rawOrder nodes edges := List.take_subset _ _ htopo
    have hult : (rawOrder nodes edges).indexOf u < (rawOrder nodes edges).indexOf v :=
      indexOf_lt_of_mem_take _ _ _ htopo
    exact ih u hu humem (by omega)

theorem ids_subset_rawOrder (nodes : List WNode) (edges : List WEdge) (ord : List String)
    (hsrc : ∀ e ∈ edges, e.source ∈ nodeIds nodes)
    (hord_mem : ∀ v, v ∈ ord ↔ v ∈ nodeIds nodes)
    (hord : ∀ e ∈ edges, ord.indexOf e.source < ord.indexOf e.target) :
    ∀ v ∈ nodeIds nodes, v ∈ rawOrder nodes edges := by
  suffices h : ∀ n, ∀ v ∈ ord, ord.indexOf v < n → v ∈ rawOrder nodes edges by
    intro v hv
    exact h ord.length v ((hord_mem v).mpr hv)
      (List.indexOf_lt_length.mpr ((hord_mem v).mpr hv))
  intro n
  induction n with
  | zero => intro v _ h; omega
  | succ m ih =>
    intro v hv hlt
    apply rawOrder_complete nodes edges hsrc v ((hord_mem v).mp hv)
    rw [pendCount_eq_zero_iff]
    intro e he htv
    have hsv := hsrc e he
    have hso : e.source ∈ ord := (hord_mem _).mpr hsv
    have hlt2 : ord.indexOf e.source < ord.indexOf v := by
      have := hord e he
      rwa [htv] at this
    have hvlt : ord.indexOf v < m + 1 := hlt
    exact ⟨ih e.source hso (by omega), hsv⟩

/-- Claim C1: for every acyclic graph whose edges reference only
existing node ids (acyclicity expressed by a witnessing topological order
`ord` of the node ids), `buildExecutionOrder` succeeds with a sequence of
length `nodes.length` in which every edge's source index strictly precedes
its target index. -/
theorem C1_buildOrder_topological (nodes : List WNode) (edges : List WEdge) (ord : List String)
    (hnd : (nodeIds nodes).Nodup)
    (hsrc : ∀ e ∈ edges, e.source ∈ nodeIds nodes)
    (htgt : ∀ e ∈ edges, e.target ∈ nodeIds nodes)
    (hord_mem : ∀ v, v ∈ ord ↔ v ∈ nodeIds nodes)
    (hord : ∀ e ∈ edges, ord.indexOf e.source < ord.indexOf e.target) :
    ∃ result, buildExecutionOrder nodes edges = Except.ok result ∧
      result.length = nodes.length ∧
      ∀ e ∈ edges, result.indexOf e.source < result.indexOf e.target := by
  have hsub1 := rawOrder_subset_ids nodes edges htgt
  have hsub2 := ids_subset_rawOrder nodes edges ord hsrc hord_mem hord
  have hlen : (rawOrder nodes edges).length = nodes.length := by
    have h1 : (rawOrder nodes edges).toFinset = (nodeIds nodes).toFinset := by
      ext v
      simp only [List.mem_toFinset]
      exact ⟨fun h => hsub1 v h, fun h => hsub2 v h⟩
    have h5 : (rawOrder nodes edges).toFinset.card = (nodeIds nodes).toFinset.card := by
      rw [h1]
    have h2 := List.toFinset_card_of_nodup (rawOrder_nodup nodes edges)
    have h3 := List.toFinset_card_of_nodup hnd
    have h4 : (nodeIds nodes).length = nodes.length := by simp [nodeIds]
    omega
  refine ⟨rawOrder nodes edges, ?_, hlen, ?_⟩
  · rw [buildExecutionOrder_eq]
    simp [hlen]
  · intro e he
    have htmem : e.target ∈ rawOrder nodes edges := hsub2 _ (htgt e he)
    have htake := rawOrder_topo nodes edges e he htmem
    exact indexOf_lt_of_mem_take _ _ _ htake

/-- Witness for C1 at a concrete three-node chain. -/
theorem C1_buildOrder_topological_witness :
    ∃ result, buildExecutionOrder
        [⟨"A", "Project", "projectCreate"⟩, ⟨"B", "Contract", "contractInput"⟩,
          ⟨"C", "Compile", "compile"⟩]
        [⟨"A", "B"⟩, ⟨"B", "C"⟩] = Except.ok result ∧
      result.length = 3 ∧
      ∀ e ∈ [(⟨"A", "B"⟩ : WEdge), ⟨"B", "C"⟩],
        result.indexOf e.source < result.indexOf e.target := by
  have h := C1_buildOrder_topological
    [⟨"A", "Project", "projectCreate"⟩, ⟨"B", "Contract", "contractInput"⟩,
      ⟨"C", "Compile", "compile"⟩]
    [⟨"A", "B"⟩, ⟨"B", "C"⟩] (["A", "B", "C"])
    (by decide) (by decide) (by decide) (fun v => Iff.rfl) (by decide)
  simpa using h

/-- The loop when every queued id has an empty (or absent) adjacency entry:
it just drains the queue in order. -/
theorem kahnLoop_no_neighbors (am : List (String × List String)) :
    ∀ (fuel : Nat) (queue : List String) (dm : List (String × Int)) (result : List String),
    (∀ v ∈ queue, (mapGet am v).getD [] = []) →
    queue.length ≤ fuel →
    kahnLoop am fuel dm queue result = result ++ queue := by
  intro fuel
  induction fuel with
  | zero =>
    intro queue dm result _ hlen
    have : queue = [] := List.length_eq_zero.mp (by omega)
    subst this
    simp [kahnLoop_zero]
  | succ f ih =>
    intro queue dm result hemp hlen
    cases queue with
    | nil => simp [kahnLoop_nil]
    | cons v rest =>
      rw [kahnLoop_cons, hemp v (by simp), List.foldl_nil]
      rw [ih rest _ _ (fun w hw => hemp w (by simp [hw])) (by simp at hlen; omega)]
      simp

/-- Behaviour of `buildExecutionOrder` on a graph none of whose edges touches a real node
id: the dangling edges are silently admitted and the output is the node ids in
their original order. -/
theorem buildOrder_no_real_edges (nodes : List WNode) (edges : List WEdge)
    (hnd : (nodeIds nodes).Nodup)
    (hsrc : ∀ e ∈ edges, e.source ∉ nodeIds nodes)
    (htgt : ∀ e ∈ edges, e.target ∉ nodeIds nodes) :
    buildExecutionOrder nodes edges = Except.ok (nodeIds nodes) := by
  have hcnt : ∀ v ∈ nodeIds nodes, inCount edges v = 0 := by
    intro v hv
    unfold inCount
    rw [List.length_eq_zero, List.filter_eq_nil]
    intro e he
    simp only [decide_eq_true_eq]
    intro hh
    exact htgt e he (hh ▸ hv)
  have htof : ∀ v ∈ nodeIds nodes, targetsOf edges v = [] := by
    intro v hv
    unfold targetsOf
    rw [List.map_eq_nil, List.filter_eq_nil]
    intro e he
    simp only [decide_eq_true_eq]
    intro hh
    exact hsrc e he (hh ▸ hv)
  have hseed : seedQueue (buildMaps nodes edges).1 = nodeIds nodes := by
    rw [seedQueue_buildMaps nodes edges hnd]
    apply List.filter_eq_self.mpr
    intro v hv
    simp [hcnt v hv]
  have hraw : rawOrder nodes edges = nodeIds nodes := by
    unfold rawOrder
    rw [hseed, kahnLoop_no_neighbors _ _ _ _ _ ?hemp ?hlen]
    · simp
    case hemp =>
      intro v hv
      rw [mapGet_buildAdj]
      simp [hv, htof v hv]
    case hlen =>
      simp [nodeIds]
      omega
  rw [buildExecutionOrder_eq, hraw]
  simp [nodeIds]

/-- Claim C6: the work queue is seeded with all zero-in-degree nodes in
the order the nodes were supplied, and for a graph with no edges at all the
output is exactly the node ids in their original array order. -/
theorem C6_deterministic_order (nodes : List WNode) (edges : List WEdge)
    (hnd : (nodeIds nodes).Nodup) :
    seedQueue (buildMaps nodes edges).1 =
      (nodeIds nodes).filter (fun v => decide (inCount edges v = 0)) ∧
    buildExecutionOrder nodes [] = Except.ok (nodeIds nodes) :=
  ⟨seedQueue_buildMaps nodes edges hnd,
   buildOrder_no_real_edges nodes [] hnd (by simp) (by simp)⟩

/-- Witness for C6: with one edge `B → C`, the seed queue is `[A, B]` (node
order), and with no edges the output is the original node order. -/
theorem C6_deterministic_order_witness :
    seedQueue (buildMaps
        [⟨"A", "Project", "projectCreate"⟩, ⟨"B", "Contract", "contractInput"⟩,
          ⟨"C", "Compile", "compile"⟩] [⟨"B", "C"⟩]).1 = ["A", "B"] ∧
      buildExecutionOrder
        [⟨"A", "Project", "projectCreate"⟩, ⟨"B", "Contract", "contractInput"⟩,
          ⟨"C", "Compile", "compile"⟩] [] = Except.ok ["A", "B", "C"] := by
  have h := C6_deterministic_order
    [⟨"A", "Project", "projectCreate"⟩, ⟨"B", "Contract", "contractInput"⟩,
      ⟨"C", "Compile", "compile"⟩] [⟨"B", "C"⟩] (by decide)
  exact ⟨by rw [h.1]; rfl, h.2⟩

/-- Claim C9, counterexample: a graph with one node `A` and the dangling edge
`A → X` (target id absent from the node set).  The dangling edge is *not*
silently admitted: the phantom id `X` is enqueued when its in-degree reaches
0, the result has length 2 ≠ 1, and `buildExecutionOrder` throws the cycle
error, so the run fails because of that edge. -/
theorem C9_counterexample :
    buildExecutionOrder [⟨"A", "Project", "projectCreate"⟩] [⟨"A", "X"⟩] =
      Except.error "Workflow contains a cycle. Please check your connections." := by
  rfl

/-- Claim C9, amended: edge-endpoint existence is unenforced by the builder —
missing ids are treated as degree zero and no check rejects a dangling edge —
but a dangling edge is not always silently admitted: whether the run proceeds
depends on the whole graph, because acceptance is decided only by the final
length check.  If every edge references only ids absent from the node set,
`buildExecutionOrder` succeeds and returns the node ids in their original
order (first conjunct); a graph can even proceed while scheduling a phantom
id, as with nodes `[A, B]` and edges `A → X`, `Y → B`, where the result is
`ok [A, X]` (second conjunct); yet the run may also fail because of a
dangling edge, as in the counterexample (nodes `[A]`, edge `A → X`), where
the builder throws the spurious cycle error. -/
theorem C9_dangling_edges (nodes : List WNode) (edges : List WEdge)
    (hnd : (nodeIds nodes).Nodup)
    (hsrc : ∀ e ∈ edges, e.source ∉ nodeIds nodes)
    (htgt : ∀ e ∈ edges, e.target ∉ nodeIds nodes) :
    buildExecutionOrder nodes edges = Except.ok (nodeIds nodes) ∧
    buildExecutionOrder
        [⟨"A", "First", "projectCreate"⟩, ⟨"B", "Second", "compile"⟩]
        [⟨"A", "X"⟩, ⟨"Y", "B"⟩] = Except.ok ["A", "X"] :=
  ⟨buildOrder_no_real_edges nodes edges hnd hsrc htgt, by rfl⟩

/-- Witness for the amended C9: node `A` with a fully dangling edge `X → Y`
is executed as just `[A]`, and the mixed-endpoint graph proceeds while
scheduling the phantom id `X`. -/
theorem C9_dangling_edges_witness :
    buildExecutionOrder [⟨"A", "Project", "projectCreate"⟩] [⟨"X", "Y"⟩] =
      Except.ok ["A"] ∧
    buildExecutionOrder
        [⟨"A", "First", "projectCreate"⟩, ⟨"B", "Second", "compile"⟩]
        [⟨"A", "X"⟩, ⟨"Y", "B"⟩] = Except.ok ["A", "X"] := by
  have h := C9_dangling_edges [⟨"A", "Project", "projectCreate"⟩] [⟨"X", "Y"⟩]
    (by decide) (by decide) (by decide)
  exact h

/-! ### The workflow executor (`WorkflowExecutor.execute`, lines 254-308, and
`executeNode`, lines 383-450)

The per-type handlers call external collaborators (compiler service, wallet
extension, chain client, AI service); their observable outcome is either a
returned `ExecutionResult` or a thrown error, so the executor is parametrised
by a handler oracle `H : WNode → HandlerOutcome Val` giving each node's
handler outcome.  The context callbacks `onNodeStatus` / `onNodeUpdate` /
`onEdgeUpdate` are observed as an event trace; `updateEdgeStatus(nodeId, s)`
maps the edge array deterministically from `(nodeId, s)`, so it is recorded
as the single event `edgeUpdate nodeId s`.  The `stop()` method sets a flag
read only at the top of the loop; the boundary oracle `stopAt i` states
whether `stop()` has been called by the time the `i`-th scheduled node is
about to be considered.  The cosmetic 500 ms delay and the `console.log`
calls have no observable effect in this model and are omitted, as is the
summary string built from wall-clock time (`generateSummary`), which no claim
concerns. -/

/-- Node/edge status values of the status callbacks. -/
inductive Status
  | idle
  | running
  | success
  | error
  deriving DecidableEq, Repr

/-- Embeds `ExecutionResult` (lines 235-239): `{success, message, data?}`. -/
structure ExecutionResult (Val : Type) where
  success : Bool
  message : String
  data : Option Val
  deriving DecidableEq, Repr

/-- Observable outcome of one per-type handler (`executeProjectCreate` …
`executeCompletion`): a returned result, or a thrown error whose `message`
is `msg` (with `""` standing for a falsy/absent message). -/
inductive HandlerOutcome (Val : Type)
  | ret (r : ExecutionResult Val)
  | thrown (msg : String)

/-- Events observed through the context callbacks, plus the dispatch of a
node to its per-type handler. -/
inductive Event (Val : Type)
  | nodeStatus (id : String) (s : Status)
  | edgeUpdate (id : String) (s : Status)
  | handlerCall (id : String)
  | nodeOutput (id : String) (d : Option Val)
  | nodeError (id : String) (msg : String)
  deriving DecidableEq

/-- The eight `case` labels of the dispatch `switch` (lines 394-418). -/
def knownTypes : List String :=
  ["projectCreate", "contractInput", "compile", "generateABI",
   "generateBytecode", "deploy", "aiAudit", "completion"]

/-- Embeds `WorkflowExecutor.executeNode` (lines 383-450): set status `running`,
dispatch on the node's type tag, then report `success`/`error` and write the
output or error back into the node's data; a thrown handler error is caught
and converted to a failure result.  Returns the node's result together with
the emitted events. -/
def executeNode {Val : Type} (H : WNode → HandlerOutcome Val) (node : WNode) :
    ExecutionResult Val × List (Event Val) :=
  let pre : List (Event Val) :=
    [Event.nodeStatus node.id Status.running, Event.edgeUpdate node.id Status.running]
  if node.type ∈ knownTypes then
    match H node with
    | HandlerOutcome.ret r =>
      if r.success then
        (r, pre ++ [Event.handlerCall node.id,
          Event.nodeStatus node.id Status.success, Event.edgeUpdate node.id Status.success,
          Event.nodeOutput node.id r.data])
      else
        (r, pre ++ [Event.handlerCall node.id,
          Event.nodeStatus node.id Status.error, Event.edgeUpdate node.id Status.error,
          Event.nodeError node.id r.message])
    | HandlerOutcome.thrown msg =>
      (⟨false, if msg = "" then "Node execution failed" else msg, none⟩,
        pre ++ [Event.handlerCall node.id,
          Event.nodeStatus node.id Status.error, Event.edgeUpdate node.id Status.error,
          Event.nodeError node.id msg])
  else
    (⟨false, "Unknown node type: " ++ node.type, none⟩,
      pre ++ [Event.nodeStatus node.id Status.error, Event.edgeUpdate node.id Status.error,
        Event.nodeError node.id ("Unknown node type: " ++ node.type)])

/-- Overall outcome of `execute()`: the returned result, the final
execution-scoped store (`executionData`), and the emitted event trace. -/
structure ExecOutcome (Val : Type) where
  result : ExecutionResult Val
  store : List (String × Option Val)
  trace : List (Event Val)
  deriving DecidableEq

/-- The `for (const nodeId of executionOrder)` loop of `execute` (lines
270-292): check the stop flag, resolve the node (silently skipping a missing
id), run it, record its output on success, short-circuit on failure.  `i` is
the position of the boundary in the schedule, consumed by the stop oracle. -/
def executeLoop {Val : Type} (H : WNode → HandlerOutcome Val) (nodes : List WNode)
    (stopAt : Nat → Bool) :
    List String → Nat → List (String × Option Val) → List (Event Val) → ExecOutcome Val
  | [], _, store, trace =>
    ⟨⟨true, "Workflow executed successfully", none⟩, store, trace⟩
  | nodeId :: rest, i, store, trace =>
    if stopAt i then
      ⟨⟨false, "Workflow execution stopped by user", none⟩, store, trace⟩
    else
      match nodes.find? (fun n => decide (n.id = nodeId)) with
      | none => executeLoop H nodes stopAt rest (i + 1) store trace
      | some node =>
        let res := executeNode H node
        if res.1.success then
          executeLoop H nodes stopAt rest (i + 1) (mapSet store nodeId res.1.data)
            (trace ++ res.2)
        else
          ⟨⟨false, "Failed at node \"" ++ node.label ++ "\": " ++ res.1.message, none⟩,
            store, trace ++ res.2⟩

/-- Embeds `WorkflowExecutor.execute` (lines 254-308): clear the store and stop
flag, build the schedule (the thrown cycle error is caught by the
surrounding `try` and returned as a failure result), fail on an empty
schedule, then run the loop.  On overall success the source attaches a
summary and the store to `data`; the summary uses wall-clock time and is not
modelled, so the overall `data` is left `none` (no claim concerns it). -/
def execute {Val : Type} (H : WNode → HandlerOutcome Val) (nodes : List WNode)
    (edges : List WEdge) (stopAt : Nat → Bool) : ExecOutcome Val :=
  match buildExecutionOrder nodes edges with
  | Except.error msg => ⟨⟨false, msg, none⟩, [], []⟩
  | Except.ok executionOrder =>
    if executionOrder.length = 0 then
      ⟨⟨false, "No nodes to execute. Please add nodes to your workflow.", none⟩, [], []⟩
    else
      executeLoop H nodes stopAt executionOrder 0 [] []

/-- Embeds `WorkflowExecutor.findPreviousData` (lines 887-895): scan the
execution-scoped store in insertion order and return the data of the first
entry whose originating node (resolved by id in the node set) has the given
type tag; `none` when no entry matches. -/
def findPreviousData {Val : Type} (nodes : List WNode)
    (store : List (String × Option Val)) (t : String) : Option (Option Val) :=
  match store with
  | [] => none
  | (nodeId, data) :: rest =>
    match nodes.find? (fun n => decide (n.id = nodeId)) with
    | some node => if node.type = t then some data else findPreviousData nodes rest t
    | none => findPreviousData nodes rest t

/-- The per-id sequence of statuses reported through `onNodeStatus`. -/
def statusEvents {Val : Type} (trace : List (Event Val)) (id : String) : List Status :=
  trace.filterMap (fun ev =>
    match ev with
    | Event.nodeStatus i s => if i = id then some s else none
    | _ => none)

/-- The ids dispatched to a per-type handler, in dispatch order. -/
def callsOf {Val : Type} (trace : List (Event Val)) : List String :=
  trace.filterMap (fun ev =>
    match ev with
    | Event.handlerCall i => some i
    | _ => none)

/-- The node id an event concerns. -/
def eventId {Val : Type} : Event Val → String
  | Event.nodeStatus i _ => i
  | Event.edgeUpdate i _ => i
  | Event.handlerCall i => i
  | Event.nodeOutput i _ => i
  | Event.nodeError i _ => i

/-! ### Executor lemmas -/

theorem statusEvents_append {Val : Type} (a b : List (Event Val)) (id : String) :
    statusEvents (a ++ b) id = statusEvents a id ++ statusEvents b id := by
  unfold statusEvents
  rw [List.filterMap_append]

theorem callsOf_append {Val : Type} (a b : List (Event Val)) :
    callsOf (a ++ b) = callsOf a ++ callsOf b := by
  unfold callsOf
  rw [List.filterMap_append]

theorem statusEvents_cons {Val : Type} (ev : Event Val) (rest : List (Event Val))
    (id : String) :
    statusEvents (ev :: rest) id =
      (match ev with
        | Event.nodeStatus i s => if i = id then [s] else []
        | _ => []) ++ statusEvents rest id := by
  unfold statusEvents
  rw [List.filterMap_cons]
  cases ev with
  | nodeStatus i s => by_cases h : i = id <;> simp [h]
  | edgeUpdate i s => simp
  | handlerCall i => simp
  | nodeOutput i d => simp
  | nodeError i m => simp

theorem callsOf_cons {Val : Type} (ev : Event Val) (rest : List (Event Val)) :
    callsOf (ev :: rest) =
      (match ev with
        | Event.handlerCall i => [i]
        | _ => []) ++ callsOf rest := by
  unfold callsOf
  rw [List.filterMap_cons]
  cases ev <;> simp

theorem statusEvents_eq_nil {Val : Type} (tr : List (Event Val)) (id : String)
    (h : ∀ ev ∈ tr, eventId ev ≠ id) : statusEvents tr id = [] := by
  induction tr with
  | nil => rfl
  | cons ev rest ih =>
    have hev := h ev (by simp)
    have hrest := ih (fun e he => h e (by simp [he]))
    rw [statusEvents_cons, hrest]
    cases ev with
    | nodeStatus i s =>
      simp only [eventId] at hev
      simp [hev]
    | edgeUpdate i s => simp
    | handlerCall i => simp
    | nodeOutput i d => simp
    | nodeError i m => simp

theorem not_mem_callsOf {Val : Type} (tr : List (Event Val)) (id : String)
    (h : ∀ ev ∈ tr, eventId ev ≠ id) : id ∉ callsOf tr := by
  induction tr with
  | nil => simp [callsOf]
  | cons ev rest ih =>
    have hev := h ev (by simp)
    have hrest := ih (fun e he => h e (by simp [he]))
    rw [callsOf_cons]
    cases ev with
    | handlerCall i =>
      simp only [eventId] at hev
      simp [hrest]
      exact fun hh => hev hh.symm
    | nodeStatus i s => simpa using hrest
    | edgeUpdate i s => simpa using hrest
    | nodeOutput i d => simpa using hrest
    | nodeError i m => simpa using hrest

theorem executeNode_events {Val : Type} (H : WNode → HandlerOutcome Val) (node : WNode) :
    ∀ ev ∈ (executeNode H node).2, eventId ev = node.id := by
  unfold executeNode
  by_cases hk : node.type ∈ knownTypes
  · rcases hH : H node with r | msg
    · by_cases hs : r.success <;>
        · intro ev hev
          simp [hk, hH, hs] at hev
          rcases hev with h | h | h | h | h | h <;> simp [h, eventId]
    · intro ev hev
      simp [hk, hH] at hev
      rcases hev with h | h | h | h | h | h <;> simp [h, eventId]
  · intro ev hev
    simp [hk] at hev
    rcases hev with h | h | h | h | h <;> simp [h, eventId]

theorem executeNode_status_self {Val : Type} (H : WNode → HandlerOutcome Val) (node : WNode) :
    statusEvents (executeNode H node).2 node.id =
      if (executeNode H node).1.success then [Status.running, Status.success]
      else [Status.running, Status.error] := by
  unfold executeNode
  by_cases hk : node.type ∈ knownTypes
  · rcases hH : H node with r | msg
    · by_cases hs : r.success <;> simp [hk, hH, hs, statusEvents]
    · simp [hk, hH, statusEvents]
  · simp [hk, statusEvents]

theorem executeNode_calls {Val : Type} (H : WNode → HandlerOutcome Val) (node : WNode) :
    ∀ i ∈ callsOf (executeNode H node).2, i = node.id := by
  unfold executeNode
  by_cases hk : node.type ∈ knownTypes
  · rcases hH : H node with r | msg
    · by_cases hs : r.success <;>
        · intro i hi
          simp [hk, hH, hs, callsOf] at hi
          exact hi
    · intro i hi
      simp [hk, hH, callsOf] at hi
      exact hi
  · intro i hi
    simp [hk, callsOf] at hi

theorem executeNode_fails {Val : Type} (H : WNode → HandlerOutcome Val) (node : WNode)
    (hknown : node.type ∈ knownTypes)
    (hfail : match H node with
      | HandlerOutcome.ret r => r.success = false
      | HandlerOutcome.thrown _ => True) :
    (executeNode H node).1.success = false := by
  unfold executeNode
  rcases hH : H node with r | msg
  · rw [hH] at hfail
    simp [hknown, hH, hfail]
  · simp [hknown, hH]

theorem executeNode_unknown {Val : Type} (H : WNode → HandlerOutcome Val) (node : WNode)
    (h : node.type ∉ knownTypes) :
    (executeNode H node).1 =
      ⟨false, "Unknown node type: " ++ node.type, none⟩ ∧
    callsOf (executeNode H node).2 = [] := by
  unfold executeNode
  simp [h, callsOf]

theorem find_some_id {nodes : List WNode} {nodeId : String} {node : WNode}
    (h : nodes.find? (fun n => decide (n.id = nodeId)) = some node) : node.id = nodeId := by
  have := List.find?_some h
  simpa using this

theorem buildOrder_ok_eq {nodes : List WNode} {edges : List WEdge} {order : List String}
    (h : buildExecutionOrder nodes edges = Except.ok order) :
    order = rawOrder nodes edges := by
  rw [buildExecutionOrder_eq] at h
  by_cases hc : (rawOrder nodes edges).length ≠ nodes.length
  · simp [hc] at h
  · simp only [hc, if_false, Except.ok.injEq] at h
    exact h.symm

theorem buildOrder_ok_nodup {nodes : List WNode} {edges : List WEdge} {order : List String}
    (h : buildExecutionOrder nodes edges = Except.ok order) : order.Nodup :=
  (buildOrder_ok_eq h) ▸ rawOrder_nodup nodes edges

/-- Unfolding equation: the empty-schedule exit of the loop. -/
theorem executeLoop_nil {Val : Type} (H : WNode → HandlerOutcome Val) (nodes : List WNode)
    (stopAt : Nat → Bool) (i : Nat) (store : List (String × Option Val))
    (trace : List (Event Val)) :
    executeLoop H nodes stopAt ([] : List String) i store trace =
      ⟨⟨true, "Workflow executed successfully", none⟩, store, trace⟩ := rfl

/-- Unfolding equation: one iteration of the loop. -/
theorem executeLoop_cons {Val : Type} (H : WNode → HandlerOutcome Val) (nodes : List WNode)
    (stopAt : Nat → Bool) (nodeId : String) (rest : List String) (i : Nat)
    (store : List (String × Option Val)) (trace : List (Event Val)) :
    executeLoop H nodes stopAt (nodeId :: rest) i store trace =
      if stopAt i then
        ⟨⟨false, "Workflow execution stopped by user", none⟩, store, trace⟩
      else
        match nodes.find? (fun n => decide (n.id = nodeId)) with
        | none => executeLoop H nodes stopAt rest (i + 1) store trace
        | some node =>
          if (executeNode H node).1.success then
            executeLoop H nodes stopAt rest (i + 1)
              (mapSet store nodeId (executeNode H node).1.data)
              (trace ++ (executeNode H node).2)
          else
            ⟨⟨false, "Failed at node \"" ++ node.label ++ "\": " ++
                (executeNode H node).1.message, none⟩,
              store, trace ++ (executeNode H node).2⟩ := rfl

/-- Running the loop over a prefix of well-behaved schedule entries (no stop
requested, every resolved node succeeds) reduces to running it on the rest,
with the store and trace extended only by entries/events of prefix ids. -/
theorem executeLoop_runs_pre {Val : Type} (H : WNode → HandlerOutcome Val)
    (nodes : List WNode) (stopAt : Nat → Bool) (pre : List String) :
    ∀ (post : List String) (i : Nat) (store : List (String × Option Val))
      (trace : List (Event Val)),
    (∀ j, j < pre.length → stopAt (i + j) = false) →
    (∀ nodeId ∈ pre, ∀ node, nodes.find? (fun n => decide (n.id = nodeId)) = some node →
        (executeNode H node).1.success = true) →
    ∃ Δ store',
      executeLoop H nodes stopAt (pre ++ post) i store trace =
        executeLoop H nodes stopAt post (i + pre.length) store' (trace ++ Δ) ∧
      (∀ ev ∈ Δ, eventId ev ∈ pre) ∧
      (∀ k ∈ mapKeys store', k ∈ mapKeys store ∨ k ∈ pre) := by
  induction pre with
  | nil =>
    intro post i store trace _ _
    exact ⟨[], store, by simp, by simp, fun k hk => Or.inl hk⟩
  | cons nodeId pre' ih =>
    intro post i store trace hstop hsucc
    have hstop0 : stopAt i = false := by simpa using hstop 0 (by simp)
    have hstep : ∀ j, j < pre'.length → stopAt (i + 1 + j) = false := by
      intro j hj
      have h1 := hstop (j + 1) (by simp; omega)
      have h2 : i + (j + 1) = i + 1 + j := by omega
      rwa [h2] at h1
    have hsucc' : ∀ idj ∈ pre', ∀ nd,
        nodes.find? (fun n => decide (n.id = idj)) = some nd →
        (executeNode H nd).1.success = true :=
      fun idj hj nd hnd => hsucc idj (by simp [hj]) nd hnd
    have hidx : i + 1 + pre'.length = i + (nodeId :: pre').length := by
      simp only [List.length_cons]
      omega
    rw [List.cons_append]
    rcases hfind : nodes.find? (fun n => decide (n.id = nodeId)) with _ | node
    · obtain ⟨Δ, store', heq, hΔ, hkeys⟩ := ih post (i + 1) store trace hstep hsucc'
      refine ⟨Δ, store', ?_, fun ev hev => by simp [hΔ ev hev], fun k hk => ?_⟩
      · rw [executeLoop_cons]
        simp only [hstop0, Bool.false_eq_true, if_false, hfind]
        rw [heq, hidx]
      · rcases hkeys k hk with h | h
        · exact Or.inl h
        · exact Or.inr (by simp [h])
    · have hs : (executeNode H node).1.success = true := hsucc nodeId (by simp) node hfind
      obtain ⟨Δ, store', heq, hΔ, hkeys⟩ := ih post (i + 1)
        (mapSet store nodeId (executeNode H node).1.data)
        (trace ++ (executeNode H node).2) hstep hsucc'
      refine ⟨(executeNode H node).2 ++ Δ, store', ?_, ?_, ?_⟩
      · rw [executeLoop_cons]
        simp only [hstop0, Bool.false_eq_true, if_false, hfind, hs, if_true]
        rw [heq, hidx, List.append_assoc]
      · intro ev hev
        rcases List.mem_append.mp hev with h | h
        · have := executeNode_events H node ev h
          rw [this, find_some_id hfind]
          simp
        · simp [hΔ ev h]
      · intro k hk
        rcases hkeys k hk with h | h
        · rw [mapKeys_mapSet] at h
          by_cases hmem : nodeId ∈ mapKeys store
          · rw [if_pos hmem] at h
            exact Or.inl h
          · rw [if_neg hmem] at h
            rcases List.mem_append.mp h with h | h
            · exact Or.inl h
            · simp at h
              exact Or.inr (by simp [h])
        · exact Or.inr (by simp [h])

/-- Claim C3: if the run reaches a node whose handler returns failure or
throws, `execute()` immediately returns an overall failure whose message
embeds the node's display label and the per-node failure message, no handler
of any later scheduled node is invoked, the failing node's status is set to
`error`, and its output is not recorded in the execution-scoped store. -/
theorem C3_handler_failure {Val : Type} (H : WNode → HandlerOutcome Val)
    (nodes : List WNode) (edges : List WEdge) (stopAt : Nat → Bool)
    (pre post : List String) (nodeId : String) (node : WNode)
    (horder : buildExecutionOrder nodes edges = Except.ok (pre ++ nodeId :: post))
    (hstop : ∀ j, j ≤ pre.length → stopAt j = false)
    (hpre : ∀ idj ∈ pre, ∀ nd, nodes.find? (fun n => decide (n.id = idj)) = some nd →
        (executeNode H nd).1.success = true)
    (hfind : nodes.find? (fun n => decide (n.id = nodeId)) = some node)
    (hknown : node.type ∈ knownTypes)
    (hfail : match H node with
      | HandlerOutcome.ret r => r.success = false
      | HandlerOutcome.thrown _ => True) :
    (execute H nodes edges stopAt).result.success = false ∧
    (execute H nodes edges stopAt).result.message =
      "Failed at node \"" ++ node.label ++ "\": " ++ (executeNode H node).1.message ∧
    statusEvents (execute H nodes edges stopAt).trace nodeId =
      [Status.running, Status.error] ∧
    (∀ idj ∈ post, idj ∉ callsOf (execute H nodes edges stopAt).trace) ∧
    mapGet (execute H nodes edges stopAt).store nodeId = none := by
  have hnd : (pre ++ nodeId :: post).Nodup := buildOrder_ok_nodup horder
  have hdisj := List.disjoint_of_nodup_append hnd
  have hnotpre : nodeId ∉ pre := fun hmem => hdisj hmem (by simp)
  have hpostnodup : (nodeId :: post).Nodup := (List.nodup_append.mp hnd).2.1
  have hfailN := executeNode_fails H node hknown hfail
  obtain ⟨Δ, store', heq, hΔ, hkeys⟩ :=
    executeLoop_runs_pre H nodes stopAt pre (nodeId :: post) 0 [] []
      (fun j hj => by simpa using hstop j (by omega))
      hpre
  have hexec : execute H nodes edges stopAt =
      executeLoop H nodes stopAt (pre ++ nodeId :: post) 0 [] [] := by
    unfold execute
    rw [horder]
    simp
  have hstoppt : stopAt (0 + pre.length) = false := by
    simpa using hstop pre.length (le_refl _)
  rw [hexec, heq, executeLoop_cons]
  simp only [hstoppt, Bool.false_eq_true, if_false, hfind, hfailN]
  have hid := find_some_id hfind
  refine ⟨by trivial, by trivial, ?_, ?_, ?_⟩
  · simp only [List.nil_append]
    rw [statusEvents_append]
    rw [statusEvents_eq_nil Δ nodeId
      (fun ev hev => fun hh => hnotpre (hh ▸ hΔ ev hev))]
    rw [List.nil_append]
    have := executeNode_status_self H node
    rw [hid] at this
    rw [this, hfailN]
    simp
  · intro idj hidj
    simp only [List.nil_append]
    rw [callsOf_append]
    have hnidj : idj ∉ pre := fun hh => hdisj hh (by simp [hidj])
    have hne2 : idj ≠ nodeId := by
      intro hh
      exact (List.nodup_cons.mp hpostnodup).1 (hh ▸ hidj)
    rw [List.mem_append]
    push_neg
    constructor
    · exact not_mem_callsOf Δ idj (fun ev hev => fun hh => hnidj (hh ▸ hΔ ev hev))
    · intro hmem
      have := executeNode_calls H node idj hmem
      rw [hid] at this
      exact hne2 this
  · apply mapGet_eq_none_of_not_mem
    intro hmem
    rcases hkeys nodeId hmem with h | h
    · simp [mapKeys] at h
    · exact hnotpre h

/-- Witness for C3: a two-node chain where the second node's handler fails. -/
theorem C3_handler_failure_witness :
    (execute
        (fun n => if n.id = "n2" then HandlerOutcome.ret ⟨false, "boom", none⟩
          else HandlerOutcome.ret ⟨true, "ok", some (1 : Nat)⟩)
        [⟨"n1", "First", "contractInput"⟩, ⟨"n2", "Second", "compile"⟩]
        [⟨"n1", "n2"⟩] (fun _ => false)).result.success = false ∧
    (execute
        (fun n => if n.id = "n2" then HandlerOutcome.ret ⟨false, "boom", none⟩
          else HandlerOutcome.ret ⟨true, "ok", some (1 : Nat)⟩)
        [⟨"n1", "First", "contractInput"⟩, ⟨"n2", "Second", "compile"⟩]
        [⟨"n1", "n2"⟩] (fun _ => false)).result.message =
      "Failed at node \"Second\": boom" := by
  have h := C3_handler_failure
    (fun n => if n.id = "n2" then HandlerOutcome.ret ⟨false, "boom", none⟩
      else HandlerOutcome.ret ⟨true, "ok", some (1 : Nat)⟩)
    [⟨"n1", "First", "contractInput"⟩, ⟨"n2", "Second", "compile"⟩]
    [⟨"n1", "n2"⟩] (fun _ => false) ["n1"] [] "n2" ⟨"n2", "Second", "compile"⟩
    (by rfl) (fun j _ => rfl)
    (by
      intro idj hidj nd hnd
      simp at hidj
      subst hidj
      simp at hnd
      subst hnd
      rfl)
    (by rfl) (by decide) (by simp)
  refine ⟨h.1, ?_⟩
  rw [h.2.1]
  rfl

/-- Claim C10: a node whose type tag is outside the eight known types is
dispatched to the `default` branch: it yields a failure result naming the
unknown type, the node's status is set to `error`, no handler is invoked for
it, and the whole run fails at that node (no exception escapes — the embedded
`execute` is total and returns the failure result). -/
theorem C10_unknown_type {Val : Type} (H : WNode → HandlerOutcome Val)
    (nodes : List WNode) (edges : List WEdge) (stopAt : Nat → Bool)
    (pre post : List String) (nodeId : String) (node : WNode)
    (horder : buildExecutionOrder nodes edges = Except.ok (pre ++ nodeId :: post))
    (hstop : ∀ j, j ≤ pre.length → stopAt j = false)
    (hpre : ∀ idj ∈ pre, ∀ nd, nodes.find? (fun n => decide (n.id = idj)) = some nd →
        (executeNode H nd).1.success = true)
    (hfind : nodes.find? (fun n => decide (n.id = nodeId)) = some node)
    (hunknown : node.type ∉ knownTypes) :
    (executeNode H node).1 = ⟨false, "Unknown node type: " ++ node.type, none⟩ ∧
    (execute H nodes edges stopAt).result.success = false ∧
    (execute H nodes edges stopAt).result.message =
      "Failed at node \"" ++ node.label ++ "\": " ++ ("Unknown node type: " ++ node.type) ∧
    statusEvents (execute H nodes edges stopAt).trace nodeId =
      [Status.running, Status.error] ∧
    nodeId ∉ callsOf (execute H nodes edges stopAt).trace := by
  have hnd : (pre ++ nodeId :: post).Nodup := buildOrder_ok_nodup horder
  have hdisj := List.disjoint_of_nodup_append hnd
  have hnotpre : nodeId ∉ pre := fun hmem => hdisj hmem (by simp)
  obtain ⟨hres, hcalls⟩ := executeNode_unknown H node hunknown
  have hfailN : (executeNode H node).1.success = false := by rw [hres]
  obtain ⟨Δ, store', heq, hΔ, hkeys⟩ :=
    executeLoop_runs_pre H nodes stopAt pre (nodeId :: post) 0 [] []
      (fun j hj => by simpa using hstop j (by omega))
      hpre
  have hexec : execute H nodes edges stopAt =
      executeLoop H nodes stopAt (pre ++ nodeId :: post) 0 [] [] := by
    unfold execute
    rw [horder]
    simp
  have hstoppt : stopAt (0 + pre.length) = false := by
    simpa using hstop pre.length (le_refl _)
  rw [hexec, heq, executeLoop_cons]
  simp only [hstoppt, Bool.false_eq_true, if_false, hfind, hfailN]
  have hid := find_some_id hfind
  refine ⟨hres, by trivial, ?_, ?_, ?_⟩
  · show "Failed at node \"" ++ node.label ++ "\": " ++ (executeNode H node).1.message = _
    rw [hres]
  · simp only [List.nil_append]
    rw [statusEvents_append]
    rw [statusEvents_eq_nil Δ nodeId
      (fun ev hev => fun hh => hnotpre (hh ▸ hΔ ev hev))]
    rw [List.nil_append]
    have := executeNode_status_self H node
    rw [hid] at this
    rw [this, hfailN]
    simp
  · simp only [List.nil_append]
    rw [callsOf_append, List.mem_append]
    push_neg
    constructor
    · exact not_mem_callsOf Δ nodeId (fun ev hev => fun hh => hnotpre (hh ▸ hΔ ev hev))
    · rw [hcalls]
      simp

/-- Witness for C10: a single node with the made-up type `frobnicate`. -/
theorem C10_unknown_type_witness :
    (executeNode (fun _ => HandlerOutcome.ret ⟨true, "ok", some (1 : Nat)⟩)
        ⟨"u1", "Weird", "frobnicate"⟩).1 =
      ⟨false, "Unknown node type: frobnicate", none⟩ ∧
    (execute (fun _ => HandlerOutcome.ret ⟨true, "ok", some (1 : Nat)⟩)
        [⟨"u1", "Weird", "frobnicate"⟩] [] (fun _ => false)).result.success = false := by
  have h := C10_unknown_type (fun _ => HandlerOutcome.ret ⟨true, "ok", some (1 : Nat)⟩)
    [⟨"u1", "Weird", "frobnicate"⟩] [] (fun _ => false) [] [] "u1"
    ⟨"u1", "Weird", "frobnicate"⟩
    (by rfl) (fun j _ => rfl) (by simp) (by rfl) (by decide)
  exact ⟨h.1, h.2.1⟩

/-- Claim C4, counterexample: in the exact scenario of the claim (3-node chain,
stop requested after node 1 completes and before node 2 starts), the overall
failure message is `"Workflow execution stopped by user"`, which is *not*
equal to `"stopped by user"` — the claim's exact-message clause fails. -/
theorem C4_counterexample :
    (execute (fun _ => HandlerOutcome.ret ⟨true, "ok", some (1 : Nat)⟩)
        [⟨"n1", "First", "contractInput"⟩, ⟨"n2", "Second", "compile"⟩,
          ⟨"n3", "Third", "deploy"⟩]
        [⟨"n1", "n2"⟩, ⟨"n2", "n3"⟩]
        (fun i => decide (1 ≤ i))).result.message =
      "Workflow execution stopped by user" ∧
    ¬((execute (fun _ => HandlerOutcome.ret ⟨true, "ok", some (1 : Nat)⟩)
        [⟨"n1", "First", "contractInput"⟩, ⟨"n2", "Second", "compile"⟩,
          ⟨"n3", "Third", "deploy"⟩]
        [⟨"n1", "n2"⟩, ⟨"n2", "n3"⟩]
        (fun i => decide (1 ≤ i))).result.message = "stopped by user") := by
  constructor
  · rfl
  · intro h
    exact absurd h (by decide)

/-- Claim C4, amended: if `stop()` is requested after the first `k` scheduled
nodes complete and before node `k+1` starts, `execute()` returns a failure
result whose message is `"Workflow execution stopped by user"` (which
contains `"stopped by user"` as a substring), no handler of node `k+1` or any
later node is invoked, and those nodes never leave `idle` (no status event is
emitted for them).  The stop flag is consulted only through the boundary
oracle `stopAt`, i.e. only at node boundaries, never mid-node. -/
theorem C4_stop_at_boundary {Val : Type} (H : WNode → HandlerOutcome Val)
    (nodes : List WNode) (edges : List WEdge) (stopAt : Nat → Bool)
    (pre post : List String) (nodeId : String)
    (horder : buildExecutionOrder nodes edges = Except.ok (pre ++ nodeId :: post))
    (hstop : ∀ j, j < pre.length → stopAt j = false)
    (hstopk : stopAt pre.length = true)
    (hpre : ∀ idj ∈ pre, ∀ nd, nodes.find? (fun n => decide (n.id = idj)) = some nd →
        (executeNode H nd).1.success = true) :
    (execute H nodes edges stopAt).result.success = false ∧
    (execute H nodes edges stopAt).result.message = "Workflow execution stopped by user" ∧
    (∃ a b, (execute H nodes edges stopAt).result.message = a ++ "stopped by user" ++ b) ∧
    (∀ idj ∈ nodeId :: post, idj ∉ callsOf (execute H nodes edges stopAt).trace ∧
      statusEvents (execute H nodes edges stopAt).trace idj = []) := by
  have hnd : (pre ++ nodeId :: post).Nodup := buildOrder_ok_nodup horder
  have hdisj := List.disjoint_of_nodup_append hnd
  obtain ⟨Δ, store', heq, hΔ, hkeys⟩ :=
    executeLoop_runs_pre H nodes stopAt pre (nodeId :: post) 0 [] []
      (fun j hj => by simpa using hstop j hj)
      hpre
  have hexec : execute H nodes edges stopAt =
      executeLoop H nodes stopAt (pre ++ nodeId :: post) 0 [] [] := by
    unfold execute
    rw [horder]
    simp
  have hstoppt : stopAt (0 + pre.length) = true := by simpa using hstopk
  rw [hexec, heq, executeLoop_cons, if_pos hstoppt]
  refine ⟨by trivial, by trivial, ⟨"Workflow execution ", "", by rfl⟩, ?_⟩
  intro idj hidj
  have hnidj : idj ∉ pre := fun hh => hdisj hh hidj
  constructor
  · simp only [List.nil_append]
    exact not_mem_callsOf Δ idj (fun ev hev => fun hh => hnidj (hh ▸ hΔ ev hev))
  · simp only [List.nil_append]
    exact statusEvents_eq_nil Δ idj (fun ev hev => fun hh => hnidj (hh ▸ hΔ ev hev))

/-- Witness for the amended C4 at the claim's own scenario E. -/
theorem C4_stop_at_boundary_witness :
    (execute (fun _ => HandlerOutcome.ret ⟨true, "ok", some (1 : Nat)⟩)
        [⟨"n1", "First", "contractInput"⟩, ⟨"n2", "Second", "compile"⟩,
          ⟨"n3", "Third", "deploy"⟩]
        [⟨"n1", "n2"⟩, ⟨"n2", "n3"⟩]
        (fun i => decide (1 ≤ i))).result.success = false ∧
    statusEvents (execute (fun _ => HandlerOutcome.ret ⟨true, "ok", some (1 : Nat)⟩)
        [⟨"n1", "First", "contractInput"⟩, ⟨"n2", "Second", "compile"⟩,
          ⟨"n3", "Third", "deploy"⟩]
        [⟨"n1", "n2"⟩, ⟨"n2", "n3"⟩]
        (fun i => decide (1 ≤ i))).trace "n3" = [] := by
  have h := C4_stop_at_boundary (fun _ => HandlerOutcome.ret ⟨true, "ok", some (1 : Nat)⟩)
    [⟨"n1", "First", "contractInput"⟩, ⟨"n2", "Second", "compile"⟩,
      ⟨"n3", "Third", "deploy"⟩]
    [⟨"n1", "n2"⟩, ⟨"n2", "n3"⟩]
    (fun i => decide (1 ≤ i)) ["n1"] ["n3"] "n2"
    (by rfl)
    (by
      intro j hj
      simp at hj
      subst hj
      rfl)
    (by rfl)
    (by
      intro idj hidj nd hnd
      simp at hidj
      subst hidj
      simp at hnd
      subst hnd
      rfl)
  exact ⟨h.1, (h.2.2.2 "n3" (by simp)).2⟩

/-- Loop lemma for C8: if the accumulated trace already satisfies the per-id
status shape and scheduled ids have no events yet, the shape is preserved. -/
theorem executeLoop_status_shape {Val : Type} (H : WNode → HandlerOutcome Val)
    (nodes : List WNode) (stopAt : Nat → Bool) :
    ∀ (order : List String) (i : Nat) (store : List (String × Option Val))
      (trace : List (Event Val)),
    order.Nodup →
    (∀ id2, statusEvents trace id2 = [] ∨
      statusEvents trace id2 = [Status.running, Status.success] ∨
      statusEvents trace id2 = [Status.running, Status.error]) →
    (∀ id2 ∈ order, statusEvents trace id2 = []) →
    ∀ id, statusEvents (executeLoop H nodes stopAt order i store trace).trace id = [] ∨
      statusEvents (executeLoop H nodes stopAt order i store trace).trace id =
        [Status.running, Status.success] ∨
      statusEvents (executeLoop H nodes stopAt order i store trace).trace id =
        [Status.running, Status.error] := by
  intro order
  induction order with
  | nil =>
    intro i store trace _ hP _ id
    rw [executeLoop_nil]
    exact hP id
  | cons nodeId rest ih =>
    intro i store trace hnd hP hemp id
    rw [executeLoop_cons]
    by_cases hstop : stopAt i
    · rw [if_pos hstop]
      exact hP id
    · rw [if_neg hstop]
      rcases hfind : nodes.find? (fun n => decide (n.id = nodeId)) with _ | node
    -- the two match branches
      · simp only [hfind]
        exact ih (i + 1) store trace hnd.of_cons hP
          (fun idj hj => hemp idj (by simp [hj])) id
      · simp only [hfind]
        have hid := find_some_id hfind
        have hPnew : ∀ id2, statusEvents (trace ++ (executeNode H node).2) id2 = [] ∨
            statusEvents (trace ++ (executeNode H node).2) id2 =
              [Status.running, Status.success] ∨
            statusEvents (trace ++ (executeNode H node).2) id2 =
              [Status.running, Status.error] := by
          intro id2
          rw [statusEvents_append]
          by_cases hq : id2 = nodeId
          · subst hq
            rw [hemp _ (by simp), List.nil_append]
            have hss := executeNode_status_self H node
            rw [hid] at hss
            rw [hss]
            by_cases hsc : (executeNode H node).1.success
            · rw [if_pos hsc]
              right; left; rfl
            · rw [if_neg hsc]
              right; right; rfl
          · rw [statusEvents_eq_nil (executeNode H node).2 id2
              (fun ev hev hh => hq (by rw [← hh, executeNode_events H node ev hev, hid])),
              List.append_nil]
            exact hP id2
        by_cases hsc : (executeNode H node).1.success
        · rw [if_pos hsc]
          apply ih (i + 1) _ _ hnd.of_cons hPnew
          intro idj hj
          rw [statusEvents_append, hemp idj (by simp [hj])]
          have hne : idj ≠ nodeId := fun hh => (List.nodup_cons.mp hnd).1 (hh ▸ hj)
          rw [statusEvents_eq_nil (executeNode H node).2 idj
            (fun ev hev hh => hne (by rw [← hh, executeNode_events H node ev hev, hid]))]
          rfl
        · rw [if_neg hsc]
          exact hPnew id

/-- Claim C8: within one `execute()` run, every node id's reported
status sequence is one of `[]` (never reached), `[running, success]` or
`[running, error]`: strictly `idle → running → {success | error}`, each
transition at most once, and no other transition. -/
theorem execute_err {Val : Type} (H : WNode → HandlerOutcome Val) (nodes : List WNode)
    (edges : List WEdge) (stopAt : Nat → Bool) (msg : String)
    (h : buildExecutionOrder nodes edges = Except.error msg) :
    execute H nodes edges stopAt = ⟨⟨false, msg, none⟩, [], []⟩ := by
  unfold execute
  rw [h]

theorem execute_ok_nil {Val : Type} (H : WNode → HandlerOutcome Val) (nodes : List WNode)
    (edges : List WEdge) (stopAt : Nat → Bool) (order : List String)
    (h : buildExecutionOrder nodes edges = Except.ok order) (hz : order.length = 0) :
    execute H nodes edges stopAt =
      ⟨⟨false, "No nodes to execute. Please add nodes to your workflow.", none⟩, [], []⟩ := by
  unfold execute
  rw [h]
  simp [hz]

theorem execute_ok {Val : Type} (H : WNode → HandlerOutcome Val) (nodes : List WNode)
    (edges : List WEdge) (stopAt : Nat → Bool) (order : List String)
    (h : buildExecutionOrder nodes edges = Except.ok order) (hne : order.length ≠ 0) :
    execute H nodes edges stopAt = executeLoop H nodes stopAt order 0 [] [] := by
  unfold execute
  rw [h]
  simp [hne]

theorem C8_status_transitions {Val : Type} (H : WNode → HandlerOutcome Val)
    (nodes : List WNode) (edges : List WEdge) (stopAt : Nat → Bool) (id : String) :
    statusEvents (execute H nodes edges stopAt).trace id = [] ∨
    statusEvents (execute H nodes edges stopAt).trace id =
      [Status.running, Status.success] ∨
    statusEvents (execute H nodes edges stopAt).trace id =
      [Status.running, Status.error] := by
  rcases horder : buildExecutionOrder nodes edges with msg | order
  · rw [execute_err H nodes edges stopAt msg horder]
    left; rfl
  · by_cases hlen : order.length = 0
    · rw [execute_ok_nil H nodes edges stopAt order horder hlen]
      left; rfl
    · rw [execute_ok H nodes edges stopAt order horder hlen]
      exact executeLoop_status_shape H nodes stopAt order 0 [] []
        (buildOrder_ok_nodup horder) (fun _ => Or.inl rfl) (fun _ _ => rfl) id

/-- Every element of the tail of a chain has a predecessor in the chain. -/
theorem chain_has_pred {edges : List WEdge} :
    ∀ (y : String) (l : List String),
    List.Chain' (fun a b => (WEdge.mk a b) ∈ edges) (y :: l) →
    ∀ w ∈ l, ∃ u ∈ y :: l, (WEdge.mk u w) ∈ edges := by
  intro y l
  induction l generalizing y with
  | nil =>
    intro _ w hw
    simp at hw
  | cons z zs ih =>
    intro hch w hw
    have hcons := List.chain'_cons.mp hch
    rcases List.mem_cons.mp hw with rfl | hw'
    · exact ⟨y, by simp, hcons.1⟩
    · obtain ⟨u, hu, hedge⟩ := ih z hcons.2 w hw'
      exact ⟨u, List.mem_cons_of_mem _ hu, hedge⟩

/-- In a directed cycle (a chain plus a closing edge), every member has an
in-edge from another member. -/
theorem cycle_closed (edges : List WEdge) (c : List String) (hc : c ≠ [])
    (hchain : List.Chain' (fun a b => (WEdge.mk a b) ∈ edges) c)
    (hloop : (WEdge.mk (c.getLast hc) (c.head hc)) ∈ edges) :
    ∀ v ∈ c, ∃ u ∈ c, (WEdge.mk u v) ∈ edges := by
  intro v hv
  cases c with
  | nil => simp at hv
  | cons x cs =>
    rcases List.mem_cons.mp hv with rfl | hv'
    · refine ⟨(v :: cs).getLast (by simp), List.getLast_mem _, ?_⟩
      simpa using hloop
    · exact chain_has_pred x cs hchain v hv'

/-- Claim C5: for a well-formed graph (distinct ids, edges among real
node ids) whose edges form a cycle, `buildExecutionOrder` throws the cycle
error (the result covers fewer than all nodes), and `execute()` returns a
failure result without dispatching any handler, without emitting any status
event, and with an empty store. -/
theorem C5_cycle_detection {Val : Type} (H : WNode → HandlerOutcome Val)
    (stopAt : Nat → Bool) (nodes : List WNode) (edges : List WEdge)
    (hnd : (nodeIds nodes).Nodup)
    (htgt : ∀ e ∈ edges, e.target ∈ nodeIds nodes)
    (c : List String) (hc : c ≠ [])
    (hchain : List.Chain' (fun a b => (WEdge.mk a b) ∈ edges) c)
    (hloop : (WEdge.mk (c.getLast hc) (c.head hc)) ∈ edges) :
    buildExecutionOrder nodes edges =
      Except.error "Workflow contains a cycle. Please check your connections." ∧
    (execute H nodes edges stopAt).result.success = false ∧
    callsOf (execute H nodes edges stopAt).trace = [] ∧
    (∀ id, statusEvents (execute H nodes edges stopAt).trace id = []) ∧
    (execute H nodes edges stopAt).store = [] := by
  have hclosed := cycle_closed edges c hc hchain hloop
  have hnotin := cycle_avoids_rawOrder nodes edges c hclosed
  have hv0c : c.head hc ∈ c := List.head_mem hc
  have hv0id : c.head hc ∈ nodeIds nodes := by
    obtain ⟨u, _, hedge⟩ := hclosed _ hv0c
    exact htgt _ hedge
  have hv0not : c.head hc ∉ rawOrder nodes edges := hnotin _ hv0c
  have hsubid := rawOrder_subset_ids nodes edges htgt
  have hsub2 : rawOrder nodes edges ⊆ (nodeIds nodes).erase (c.head hc) := by
    intro w hw
    have hwid := hsubid w hw
    have hwne : w ≠ c.head hc := fun hh => hv0not (hh ▸ hw)
    exact (List.mem_erase_of_ne hwne).mpr hwid
  have hle := (List.Nodup.subperm (rawOrder_nodup nodes edges) hsub2).length_le
  have herase : ((nodeIds nodes).erase (c.head hc)).length = (nodeIds nodes).length - 1 :=
    List.length_erase_of_mem hv0id
  have hids_pos : 1 ≤ (nodeIds nodes).length :=
    List.length_pos.mpr (fun hh => by rw [hh] at hv0id; simp at hv0id)
  have hidslen : (nodeIds nodes).length = nodes.length := by simp [nodeIds]
  have hltlen : (rawOrder nodes edges).length ≠ nodes.length := by omega
  have herr : buildExecutionOrder nodes edges =
      Except.error "Workflow contains a cycle. Please check your connections." := by
    rw [buildExecutionOrder_eq, if_pos hltlen]
  rw [execute_err H nodes edges stopAt _ herr]
  exact ⟨herr, rfl, rfl, fun id => rfl, rfl⟩

/-- Witness for C5: a two-node cycle `A → B → A`. -/
theorem C5_cycle_detection_witness :
    buildExecutionOrder
        [⟨"A", "First", "contractInput"⟩, ⟨"B", "Second", "compile"⟩]
        [⟨"A", "B"⟩, ⟨"B", "A"⟩] =
      Except.error "Workflow contains a cycle. Please check your connections." ∧
    (execute (fun _ => HandlerOutcome.ret ⟨true, "ok", some (1 : Nat)⟩)
        [⟨"A", "First", "contractInput"⟩, ⟨"B", "Second", "compile"⟩]
        [⟨"A", "B"⟩, ⟨"B", "A"⟩] (fun _ => false)).result.success = false := by
  have h := C5_cycle_detection (fun _ => HandlerOutcome.ret ⟨true, "ok", some (1 : Nat)⟩)
    (fun _ => false)
    [⟨"A", "First", "contractInput"⟩, ⟨"B", "Second", "compile"⟩]
    [⟨"A", "B"⟩, ⟨"B", "A"⟩]
    (by decide) (by decide) ["A", "B"] (by simp)
    (List.chain'_cons.mpr ⟨by decide, List.chain'_singleton _⟩)
    (by decide)
  exact ⟨h.1, h.2.1⟩

/-! ### The execution-scoped store of a fully successful run (for C2) -/

/-- The store entries a schedule produces when every resolved node succeeds:
one `(id, data)` pair per resolvable schedule entry, in schedule order. -/
def storeEntries {Val : Type} (H : WNode → HandlerOutcome Val) (nodes : List WNode)
    (order : List String) : List (String × Option Val) :=
  order.filterMap (fun idj =>
    match nodes.find? (fun n => decide (n.id = idj)) with
    | some nd => some (idj, (executeNode H nd).1.data)
    | none => none)

theorem executeLoop_all_success {Val : Type} (H : WNode → HandlerOutcome Val)
    (nodes : List WNode) (stopAt : Nat → Bool) :
    ∀ (order : List String) (i : Nat) (store : List (String × Option Val))
      (trace : List (Event Val)),
    (∀ j, stopAt j = false) →
    (∀ idj ∈ order, ∀ nd, nodes.find? (fun n => decide (n.id = idj)) = some nd →
        (executeNode H nd).1.success = true) →
    (executeLoop H nodes stopAt order i store trace).result.success = true ∧
    (executeLoop H nodes stopAt order i store trace).store =
      order.foldl (fun s idj =>
        match nodes.find? (fun n => decide (n.id = idj)) with
        | some nd => mapSet s idj (executeNode H nd).1.data
        | none => s) store := by
  intro order
  induction order with
  | nil =>
    intro i store trace _ _
    rw [executeLoop_nil]
    exact ⟨rfl, rfl⟩
  | cons nodeId rest ih =>
    intro i store trace hns hsucc
    rw [executeLoop_cons, hns i]
    simp only [Bool.false_eq_true, if_false, List.foldl_cons]
    rcases hfind : nodes.find? (fun n => decide (n.id = nodeId)) with _ | node
    · simp only [hfind]
      exact ih (i + 1) store trace hns
        (fun idj hj nd hnd => hsucc idj (by simp [hj]) nd hnd)
    · simp only [hfind]
      have hs := hsucc nodeId (by simp) node hfind
      rw [if_pos hs]
      exact ih (i + 1) (mapSet store nodeId (executeNode H node).1.data)
        (trace ++ (executeNode H node).2) hns
        (fun idj hj nd hnd => hsucc idj (by simp [hj]) nd hnd)

theorem store_foldl_shape {Val : Type} (H : WNode → HandlerOutcome Val) (nodes : List WNode) :
    ∀ (order : List String) (store : List (String × Option Val)),
    (∀ k ∈ mapKeys store, k ∉ order) → order.Nodup →
    order.foldl (fun s idj =>
        match nodes.find? (fun n => decide (n.id = idj)) with
        | some nd => mapSet s idj (executeNode H nd).1.data
        | none => s) store = store ++ storeEntries H nodes order := by
  intro order
  induction order with
  | nil =>
    intro store _ _
    simp [storeEntries]
  | cons idj rest ih =>
    intro store hdisj hnd
    rw [List.foldl_cons]
    unfold storeEntries
    rw [List.filterMap_cons]
    rcases hfind : nodes.find? (fun n => decide (n.id = idj)) with _ | node
    · simp only [hfind]
      exact ih store (fun k hk => fun hmem => hdisj k hk (by simp [hmem])) hnd.of_cons
    · simp only [hfind]
      have hnotk : idj ∉ mapKeys store := fun hmem => hdisj idj hmem (by simp)
      rw [mapSet_eq_append_of_not_mem _ _ _ hnotk]
      rw [ih (store ++ [(idj, (executeNode H node).1.data)]) ?hd hnd.of_cons]
      · rw [List.append_assoc]
        rfl
      case hd =>
        intro k hk
        rw [mapKeys, List.map_append] at hk
        rcases List.mem_append.mp hk with hk | hk
        · intro hmem
          exact hdisj k hk (by simp [hmem])
        · simp at hk
          subst hk
          exact (List.nodup_cons.mp hnd).1

theorem findPreviousData_cons {Val : Type} (nodes : List WNode) (k : String)
    (d : Option Val) (rest : List (String × Option Val)) (t : String) :
    findPreviousData nodes ((k, d) :: rest) t =
      match nodes.find? (fun n => decide (n.id = k)) with
      | some node => if node.type = t then some d else findPreviousData nodes rest t
      | none => findPreviousData nodes rest t := rfl

theorem findPreviousData_append_none {Val : Type} (nodes : List WNode)
    (A B : List (String × Option Val)) (t : String)
    (hA : ∀ p ∈ A, ∀ nd, nodes.find? (fun n => decide (n.id = p.1)) = some nd →
        nd.type ≠ t) :
    findPreviousData nodes (A ++ B) t = findPreviousData nodes B t := by
  induction A with
  | nil => rfl
  | cons p A' ih =>
    obtain ⟨k, d⟩ := p
    rw [List.cons_append, findPreviousData_cons]
    rcases hfind : nodes.find? (fun n => decide (n.id = k)) with _ | nd
    · simp only [hfind]
      exact ih (fun q hq => hA q (by simp [hq]))
    · simp only [hfind]
      have hne := hA (k, d) (by simp) nd hfind
      rw [if_neg hne]
      exact ih (fun q hq => hA q (by simp [hq]))

theorem findPreviousData_cons_hit {Val : Type} (nodes : List WNode) (k : String)
    (d : Option Val) (rest : List (String × Option Val)) (t : String) (nd : WNode)
    (hfind : nodes.find? (fun n => decide (n.id = k)) = some nd) (ht : nd.type = t) :
    findPreviousData nodes ((k, d) :: rest) t = some d := by
  rw [findPreviousData_cons]
  simp only [hfind]
  rw [if_pos ht]

/-- Claim C2, counterexample: two `contractInput` nodes `n1` (payload 1) then
`n2` (payload 2), both successful.  The type-keyed lookup returns `n1`'s
payload — the *first* executed node of the type — not the payload 2 of the
most recently executed `n2`, so the claim "the most recently executed one
wins" is false as stated. -/
theorem C2_counterexample :
    (execute
        (fun n => if n.id = "n1" then HandlerOutcome.ret ⟨true, "ok", some (1 : Nat)⟩
          else HandlerOutcome.ret ⟨true, "ok", some 2⟩)
        [⟨"n1", "First", "contractInput"⟩, ⟨"n2", "Second", "contractInput"⟩]
        [⟨"n1", "n2"⟩] (fun _ => false)).result.success = true ∧
    findPreviousData
        [⟨"n1", "First", "contractInput"⟩, ⟨"n2", "Second", "contractInput"⟩]
        (execute
          (fun n => if n.id = "n1" then HandlerOutcome.ret ⟨true, "ok", some (1 : Nat)⟩
            else HandlerOutcome.ret ⟨true, "ok", some 2⟩)
          [⟨"n1", "First", "contractInput"⟩, ⟨"n2", "Second", "contractInput"⟩]
          [⟨"n1", "n2"⟩] (fun _ => false)).store "contractInput" = some (some 1) ∧
    ¬(findPreviousData
        [⟨"n1", "First", "contractInput"⟩, ⟨"n2", "Second", "contractInput"⟩]
        (execute
          (fun n => if n.id = "n1" then HandlerOutcome.ret ⟨true, "ok", some (1 : Nat)⟩
            else HandlerOutcome.ret ⟨true, "ok", some 2⟩)
          [⟨"n1", "First", "contractInput"⟩, ⟨"n2", "Second", "contractInput"⟩]
          [⟨"n1", "n2"⟩] (fun _ => false)).store "contractInput" = some (some 2)) := by
  refine ⟨rfl, rfl, ?_⟩
  intro h
  have : some (some (1 : Nat)) = some (some 2) := by
    rw [← h]
    rfl
  simp at this

/-- Claim C2, amended: when a run executes two nodes of the same type
successfully, a type-keyed lookup over the execution-scoped store returns the
payload of the *earliest* executed node of that type (the store is scanned in
insertion = execution order and the first match wins), regardless of the
later node's payload. -/
theorem C2_first_of_type_wins {Val : Type} (H : WNode → HandlerOutcome Val)
    (nodes : List WNode) (edges : List WEdge) (stopAt : Nat → Bool)
    (pre mid post : List String) (id1 id2 : String) (node1 node2 : WNode) (T : String)
    (horder : buildExecutionOrder nodes edges =
      Except.ok (pre ++ id1 :: (mid ++ id2 :: post)))
    (hnostop : ∀ j, stopAt j = false)
    (hsucc : ∀ idj ∈ pre ++ id1 :: (mid ++ id2 :: post), ∀ nd,
        nodes.find? (fun n => decide (n.id = idj)) = some nd →
        (executeNode H nd).1.success = true)
    (hfind1 : nodes.find? (fun n => decide (n.id = id1)) = some node1)
    (ht1 : node1.type = T)
    (hfind2 : nodes.find? (fun n => decide (n.id = id2)) = some node2)
    (ht2 : node2.type = T)
    (hpreT : ∀ idj ∈ pre, ∀ nd, nodes.find? (fun n => decide (n.id = idj)) = some nd →
        nd.type ≠ T) :
    (execute H nodes edges stopAt).result.success = true ∧
    findPreviousData nodes (execute H nodes edges stopAt).store T =
      some (executeNode H node1).1.data := by
  have hnd := buildOrder_ok_nodup horder
  have hlen : (pre ++ id1 :: (mid ++ id2 :: post)).length ≠ 0 := by simp
  rw [execute_ok H nodes edges stopAt _ horder hlen]
  obtain ⟨hsuc, hstore⟩ := executeLoop_all_success H nodes stopAt
    (pre ++ id1 :: (mid ++ id2 :: post)) 0 [] [] hnostop hsucc
  refine ⟨hsuc, ?_⟩
  rw [hstore, store_foldl_shape H nodes _ [] (by simp [mapKeys]) hnd, List.nil_append]
  have hdecomp : storeEntries H nodes (pre ++ id1 :: (mid ++ id2 :: post)) =
      storeEntries H nodes pre ++
        ((id1, (executeNode H node1).1.data) :: storeEntries H nodes (mid ++ id2 :: post)) := by
    unfold storeEntries
    rw [List.filterMap_append, List.filterMap_cons]
    simp [hfind1]
  rw [hdecomp]
  rw [findPreviousData_append_none nodes _ _ T ?hA]
  · exact findPreviousData_cons_hit nodes id1 _ _ T node1 hfind1 ht1
  case hA =>
    intro p hp nd hnd2
    unfold storeEntries at hp
    rcases List.mem_filterMap.mp hp with ⟨idj, hidj, hmatch⟩
    rcases hfind : nodes.find? (fun n => decide (n.id = idj)) with _ | nd'
    · rw [hfind] at hmatch
      simp at hmatch
    · rw [hfind] at hmatch
      simp only [Option.some_inj] at hmatch
      have hp1 : p.1 = idj := by rw [← hmatch]
      rw [hp1] at hnd2
      rw [hfind] at hnd2
      have : nd' = nd := by simpa using hnd2
      subst this
      exact hpreT idj hidj nd' hfind

/-- Witness for the amended C2 at the counterexample's graph: the lookup
returns the first `contractInput` payload `some 1`. -/
theorem C2_first_of_type_wins_witness :
    (execute
        (fun n => if n.id = "n1" then HandlerOutcome.ret ⟨true, "ok", some (1 : Nat)⟩
          else HandlerOutcome.ret ⟨true, "ok", some 2⟩)
        [⟨"n1", "First", "contractInput"⟩, ⟨"n2", "Second", "contractInput"⟩]
        [⟨"n1", "n2"⟩] (fun _ => false)).result.success = true ∧
    findPreviousData
        [⟨"n1", "First", "contractInput"⟩, ⟨"n2", "Second", "contractInput"⟩]
        (execute
          (fun n => if n.id = "n1" then HandlerOutcome.ret ⟨true, "ok", some (1 : Nat)⟩
            else HandlerOutcome.ret ⟨true, "ok", some 2⟩)
          [⟨"n1", "First", "contractInput"⟩, ⟨"n2", "Second", "contractInput"⟩]
          [⟨"n1", "n2"⟩] (fun _ => false)).store "contractInput" =
      some (some 1) := by
  have h := C2_first_of_type_wins
    (fun n => if n.id = "n1" then HandlerOutcome.ret ⟨true, "ok", some (1 : Nat)⟩
      else HandlerOutcome.ret ⟨true, "ok", some 2⟩)
    [⟨"n1", "First", "contractInput"⟩, ⟨"n2", "Second", "contractInput"⟩]
    [⟨"n1", "n2"⟩] (fun _ => false)
    [] [] [] "n1" "n2"
    ⟨"n1", "First", "contractInput"⟩ ⟨"n2", "Second", "contractInput"⟩ "contractInput"
    (by rfl) (fun j => rfl)
    (by
      intro idj hidj nd hnd
      simp at hidj
      rcases hidj with rfl | rfl <;>
        · simp at hnd
          subst hnd
          rfl)
    (by rfl) (by rfl) (by rfl) (by rfl) (by simp)
  exact ⟨h.1, by rw [h.2]; rfl⟩

/-! ### Compile-error formatting (`executeCompile`, lines 581-599, for C7)

JavaScript strings are sequences of code units; they are embedded as
`List Char` here so that `substring(0, 500)` is `List.take 500` and string
length is list length. -/

/-- The literal appended after a truncated error (`'... (truncated)'`). -/
def truncationMarker : List Char := "... (truncated)".toList

/-- The per-error formatting step of `executeCompile` (lines 586-592):
`err.length > 500 ? err.substring(0, 500) + '... (truncated)' : err`. -/
def formatCompileError (err : List Char) : List Char :=
  if 500 < err.length then err.take 500 ++ truncationMarker else err

/-- The aggregate failure message of `executeCompile` on compiler failure
(lines 583-593): if `result.errors` is present and nonempty, the formatted
errors joined with `'\n\n'` (a blank line); otherwise `'Compilation failed'`. -/
def compileErrorMessage (errors : Option (List (List Char))) : List Char :=
  match errors with
  | some errs =>
    if 0 < errs.length then
      List.intercalate ('\n' :: '\n' :: []) (errs.map formatCompileError)
    else "Compilation failed".toList
  | none => "Compilation failed".toList

theorem intercalate_contains (sep : List Char) :
    ∀ (l : List (List Char)) (x : List Char), x ∈ l →
    ∃ a b, List.intercalate sep l = a ++ x ++ b := by
  intro l
  induction l with
  | nil =>
    intro x hx
    simp at hx
  | cons y ys ih =>
    intro x hx
    rcases List.mem_cons.mp hx with rfl | hx'
    · cases ys with
      | nil => exact ⟨[], [], by simp [List.intercalate, List.intersperse]⟩
      | cons z zs =>
        refine ⟨[], sep ++ List.intercalate sep (z :: zs), ?_⟩
        simp [List.intercalate, List.intersperse]
    · have hne : ys ≠ [] := by
        intro hh
        rw [hh] at hx'
        simp at hx'
      obtain ⟨z, zs, rfl⟩ := List.exists_cons_of_ne_nil hne
      obtain ⟨a, b, hab⟩ := ih x hx'
      refine ⟨y ++ sep ++ a, b, ?_⟩
      have hstep : List.intercalate sep (y :: z :: zs) =
          y ++ sep ++ List.intercalate sep (z :: zs) := by
        simp [List.intercalate, List.intersperse]
      rw [hstep, hab]
      simp [List.append_assoc]

/-- Claim C7: when the compiler collaborator reports failure with a
nonempty error list, the aggregate message joins the per-error formatted
strings with blank lines; every error longer than 500 characters appears
truncated to its first 500 characters plus the truncation marker (so its
formatted length is exactly `500 + marker length`), and in particular an
error of length 1000 formats to `500 + marker length` characters.  Each
formatted error occurs verbatim inside the aggregate message. -/
theorem C7_error_truncation (errs : List (List Char)) (h : errs ≠ []) :
    compileErrorMessage (some errs) =
      List.intercalate ('\n' :: '\n' :: []) (errs.map formatCompileError) ∧
    (∀ e ∈ errs, 500 < e.length →
      formatCompileError e = e.take 500 ++ truncationMarker ∧
      (formatCompileError e).length = 500 + truncationMarker.length) ∧
    (∀ e ∈ errs, e.length = 1000 →
      (formatCompileError e).length = 500 + truncationMarker.length) ∧
    (∀ e ∈ errs, ∃ a b, compileErrorMessage (some errs) =
      a ++ formatCompileError e ++ b) := by
  have hpos : 0 < errs.length := List.length_pos.mpr h
  have hmsg : compileErrorMessage (some errs) =
      List.intercalate ('\n' :: '\n' :: []) (errs.map formatCompileError) := by
    simp only [compileErrorMessage]
    rw [if_pos hpos]
  have htrunc : ∀ e : List Char, 500 < e.length →
      formatCompileError e = e.take 500 ++ truncationMarker ∧
      (formatCompileError e).length = 500 + truncationMarker.length := by
    intro e he
    have hf : formatCompileError e = e.take 500 ++ truncationMarker := by
      unfold formatCompileError
      rw [if_pos he]
    refine ⟨hf, ?_⟩
    rw [hf, List.length_append, List.length_take]
    have : min 500 e.length = 500 := by omega
    rw [this]
  refine ⟨hmsg, fun e _ he => htrunc e he, fun e _ he => (htrunc e (by omega)).2, ?_⟩
  intro e he
  obtain ⟨a, b, hab⟩ := intercalate_contains ('\n' :: '\n' :: [])
    (errs.map formatCompileError) (formatCompileError e) (List.mem_map_of_mem _ he)
  exact ⟨a, b, by rw [hmsg, hab]⟩

/-- Witness for C7: one error of exactly 1000 characters is truncated to
500 characters plus the 15-character marker. -/
theorem C7_error_truncation_witness :
    compileErrorMessage (some [List.replicate 1000 'x']) =
      List.intercalate ('\n' :: '\n' :: [])
        ([List.replicate 1000 'x'].map formatCompileError) ∧
    (formatCompileError (List.replicate 1000 'x')).length =
      500 + truncationMarker.length := by
  have h := C7_error_truncation [List.replicate 1000 'x'] (List.cons_ne_nil _ _)
  exact ⟨h.1, h.2.2.1 (List.replicate 1000 'x') (List.mem_singleton.mpr rfl)
    (by rw [List.length_replicate])⟩

end NodeFlow
